import Mathlib

/-!
Verification of the filesync manifest subsystem (src/filesync) against its
specification.  The Rust source is shallowly embedded: byte sequences are
`List Nat` (each element < 256), text is `List Char` (Lean chars are Unicode
scalar values, so comparing char lists by code point coincides with comparing
the corresponding UTF-8 byte strings byte-wise), fallible operations return
`Option` or `Except` (a `none` / `.error` models a Rust panic).
-/

namespace Filesync

/-! ## Base64 codec (base64 crate, `STANDARD_NO_PAD` engine)

`ManifestEntry::from_rel_path` (structures.rs:95) encodes the relative path's
raw bytes with `base64::engine::general_purpose::STANDARD_NO_PAD`.  The
standard alphabet and the no-padding, canonical (zero trailing bits) decoding
of that engine are embedded below over byte lists. -/

/-- Index into the standard base64 alphabet `A-Z a-z 0-9 + /`, as a byte. -/
def b64char (n : Nat) : Nat :=
  if n < 26 then 65 + n
  else if n < 52 then 97 + (n - 26)
  else if n < 62 then 48 + (n - 52)
  else if n = 62 then 43
  else 47

/-- Inverse alphabet lookup: byte of a base64 character to its 6-bit value. -/
def b64val (c : Nat) : Option Nat :=
  if 65 ≤ c ∧ c ≤ 90 then some (c - 65)
  else if 97 ≤ c ∧ c ≤ 122 then some (26 + (c - 97))
  else if 48 ≤ c ∧ c ≤ 57 then some (52 + (c - 48))
  else if c = 43 then some 62
  else if c = 47 then some 63
  else none

/-- No-padding base64 encoding of a byte sequence: groups of three bytes
become four alphabet characters; a final group of one or two bytes becomes
two or three characters (unused low bits zero, no `=` padding). -/
def b64encode : List Nat → List Nat
  | [] => []
  | [x] => [b64char (x / 4), b64char (x % 4 * 16)]
  | [x, y] => [b64char (x / 4), b64char (x % 4 * 16 + y / 16), b64char (y % 16 * 4)]
  | x :: y :: z :: rest =>
      b64char (x / 4) :: b64char (x % 4 * 16 + y / 16) :: b64char (y % 16 * 4 + z / 64)
        :: b64char (z % 64) :: b64encode rest

/-- No-padding base64 decoding (canonical: a length ≡ 1 (mod 4) and nonzero
unused trailing bits are rejected, as by the engine's default config). -/
def b64decode : List Nat → Option (List Nat)
  | [] => some []
  | [_] => none
  | [a, b] =>
      (b64val a).bind fun va => (b64val b).bind fun vb =>
        if vb % 16 = 0 then some [va * 4 + vb / 16] else none
  | [a, b, c] =>
      (b64val a).bind fun va => (b64val b).bind fun vb => (b64val c).bind fun vc =>
        if vc % 4 = 0 then some [va * 4 + vb / 16, vb % 16 * 16 + vc / 4] else none
  | a :: b :: c :: d :: rest =>
      (b64val a).bind fun va => (b64val b).bind fun vb => (b64val c).bind fun vc =>
        (b64val d).bind fun vd => (b64decode rest).bind fun tail =>
          some ((va * 4 + vb / 16) :: (vb % 16 * 16 + vc / 4) :: (vc % 4 * 64 + vd) :: tail)

/-! ## Directory walk (lib.rs `discover_files`, lines 69-89)

The filesystem tree is modelled as an inductive value; a node is a regular
file, a directory with named children (in directory-enumeration order), a
symlink or an "other" node.  `WalkDir::new(root).follow_links(false)` yields
the root at depth 0 and then descends only into directories; `filter_entry`
skips an entry and its whole subtree when the predicate is false.  Paths are
relative to the root, represented as component lists (`Path::starts_with` and
`Path` ordering are component-wise).  A prefix string such as "sub/a" is
modelled as its component list `["sub", "a"]`. -/

inductive FsNode where
  | file : FsNode
  | dir (children : List (String × FsNode)) : FsNode
  | symlink : FsNode
  | other : FsNode

/-- Reserved manifest filename, lib.rs:17. -/
def trackingFilename : String := "filesync_tracking.txt"

/-- The `filter_entry` closure of `discover_files` (lib.rs:73-79): keep an
entry when no prefix list was given, when it is the root (depth 0), or when
its path starts (component-wise) with one of `root/{p}` for a given prefix
`p`. -/
def filterEntryPred (prefs : Option (List (List String))) (rel : List String) : Bool :=
  match prefs with
  | none => true
  | some ps => rel.isEmpty || ps.any (fun p => p.isPrefixOf rel)

mutual
/-- The `WalkDir` traversal with `filter_entry` applied: an entry whose
predicate is false is dropped together with its whole subtree; symlinks are
never followed (only `dir` children are descended into).  Yields relative
paths, the root as `[]` first (parents before children). -/
def walkFs (prefs : Option (List (List String))) (rel : List String) :
    FsNode → List (List String)
  | .dir children =>
      if filterEntryPred prefs rel then rel :: walkFsChildren prefs rel children else []
  | _ => if filterEntryPred prefs rel then [rel] else []

/-- Walk the children of a directory in enumeration order. -/
def walkFsChildren (prefs : Option (List (List String))) (rel : List String) :
    List (String × FsNode) → List (List String)
  | [] => []
  | (name, child) :: rest =>
      walkFs prefs (rel ++ [name]) child ++ walkFsChildren prefs rel rest
end

/-- Sorting.  The source sorts with `slice::sort_by` (stable) and
`par_sort_unstable` / `par_sort_unstable_by` (unstable).  Both are embedded
as insertion sort: it is stable (matching `sort_by` exactly), and for the
unstable call sites the tie order is unspecified in the source, so any
sorted permutation is a faithful refinement.  (Core's `List.mergeSort` is
compiled by well-founded recursion and does not evaluate in the kernel,
hence a local structural sort.) -/
def orderedInsertB (le : α → α → Bool) (a : α) : List α → List α
  | [] => [a]
  | b :: l => if le a b then a :: b :: l else b :: orderedInsertB le a l

/-- Insertion sort by a boolean `le`; see `orderedInsertB`. -/
def sortByLe (le : α → α → Bool) : List α → List α
  | [] => []
  | a :: l => orderedInsertB le a (sortByLe le l)

/-- Strict byte-wise comparison of two character lists.  UTF-8 encoding is
order-preserving, so comparing code points lexicographically coincides with
Rust's `str`/`String`/`OsStr` ordering, which compares the UTF-8 bytes. -/
def charListLt : List Char → List Char → Bool
  | [], [] => false
  | [], _ :: _ => true
  | _ :: _, [] => false
  | a :: as, b :: bs =>
      if a.toNat < b.toNat then true
      else if b.toNat < a.toNat then false
      else charListLt as bs

/-- Rust string comparison (byte-wise `Ord` on `str`). -/
def strLtB (a b : String) : Bool := charListLt a.data b.data

/-- Lexicographic order on component lists, components compared as strings
(byte-wise); this is `Path` ordering restricted to the plain relative paths a
walk produces, used for the final `sort_by` on `path_key` (lib.rs:87). -/
def compLexLe : List String → List String → Bool
  | [], _ => true
  | _ :: _, [] => false
  | a :: as, b :: bs =>
      if strLtB a b then true else if strLtB b a then false else compLexLe as bs

/-- The path-selection part of `discover_files` (lib.rs:69-89): walk, drop
the root (depth 0), drop an entry whose whole relative path equals the
reserved manifest filename, and sort by path key. -/
def discoverPaths (root : FsNode) (prefs : Option (List (List String))) :
    List (List String) :=
  sortByLe compLexLe
    (((walkFs prefs [] root).filter (fun r => !r.isEmpty)).filter
      (fun r => decide (r ≠ [trackingFilename])))

mutual
/-- All relative paths present in a tree (including `[]` for the root
itself), independent of any walk: the reference set for exclusion claims. -/
def treeRels : FsNode → List (List String)
  | .dir children => [] :: treeRelsChildren children
  | _ => [[]]

/-- Relative paths contributed by a children list. -/
def treeRelsChildren : List (String × FsNode) → List (List String)
  | [] => []
  | (name, child) :: rest =>
      (treeRels child).map (fun r => name :: r) ++ treeRelsChildren rest
end

/-- Concrete tree for C3: `sub/a/x.txt` and `sub/b/y.txt`. -/
def c3Tree : FsNode :=
  .dir [("sub", .dir [("a", .dir [("x.txt", .file)]), ("b", .dir [("y.txt", .file)])])]

/-- Concrete tree for C10, following the test fixture
`creates_complicated_testing_tree` (tests.rs:153-154): a copy of the reserved
filename nested under `f4/` next to an ordinary file, and the reserved
filename itself at the root. -/
def c10Tree : FsNode :=
  .dir [("f4", .dir [("inner2", .file), (trackingFilename, .file)]),
        (trackingFilename, .file), ("f1", .dir [("a.txt", .file)])]

/-! ## Entry construction at the byte level
(structures.rs `ManifestEntry::from_rel_path`, lines 69-103, and `mtime_ns`,
lines 213-219)

`fs::symlink_metadata` and `fs::read_link` results are inputs of the model;
`.error` stands for an I/O failure (which the source turns into a panic when
it propagates).  A `SystemTime` is a signed nanosecond offset from the Unix
epoch; `modified()` may itself fail, which is the case claim C8 is about. -/

inductive NodeType where
  | file : NodeType
  | dir : NodeType
  | symlink : NodeType
  | other : NodeType
deriving DecidableEq

instance : DecidableEq (Except Unit Int) := fun
  | .ok a, .ok b =>
      if h : a = b then isTrue (by rw [h])
      else isFalse (fun he => by cases he; exact h rfl)
  | .ok _, .error _ => isFalse (fun h => by cases h)
  | .error _, .ok _ => isFalse (fun h => by cases h)
  | .error a, .error b => isTrue (by cases a; cases b; rfl)

/-- Symlink-level metadata as observed by the source: the three `FileType`
predicates, `len()`, the raw `mode()` bits, and the `modified()` result. -/
structure MetadataSim where
  is_dir : Bool
  is_file : Bool
  is_symlink : Bool
  len : Nat
  raw_mode : Nat
  modified : Except Unit Int
deriving DecidableEq

/-- `FileMeta` with byte-level path fields (structures.rs:24-47). -/
structure FileMetaB where
  encoded_path_b64 : List Nat
  ty : NodeType
  size : Option Nat
  mtime_ns : Int
  mode : Option Nat
  link_target : Option (List Nat)
deriving DecidableEq

/-- `ManifestEntry` with a byte-level `path_key` (a `PathBuf` holds raw OS
bytes; structures.rs:50-56). -/
structure ManifestEntryB where
  path_key : List Nat
  record : FileMetaB
deriving DecidableEq

/-- Node classification (structures.rs:79-84): `is_dir`, then `is_file`,
then `is_symlink`, else `Other`. -/
def classify (md : MetadataSim) : NodeType :=
  if md.is_dir then .dir
  else if md.is_file then .file
  else if md.is_symlink then .symlink
  else .other

/-- `mtime_ns` (structures.rs:213-219): `modified().unwrap_or(UNIX_EPOCH)`,
then signed nanoseconds since the epoch (pre-epoch durations negated). -/
def mtime_ns (modified : Except Unit Int) : Int :=
  let t : Int := match modified with | .ok t => t | .error _ => 0
  if 0 ≤ t then t else -(-t)

/-- `ManifestEntry::from_rel_path` (structures.rs:69-103) over modelled
metadata: a `symlink_metadata` failure propagates (panic); for symlinks a
`read_link` failure propagates; the path key is the raw relative path with
`/` (byte 47) appended iff the node is a directory (`rel.join("")`); the
record stores the no-padding base64 of the raw bytes, the size for files
only, the mtime, and the mode masked to the low 12 bits (`& 0o7777`). -/
def from_rel_path (mdr : Except Unit MetadataSim) (readLinkRes : Except Unit (List Nat))
    (rel : List Nat) : Except Unit ManifestEntryB :=
  mdr.bind fun md =>
    (if classify md = .symlink then Except.map some readLinkRes else .ok none).bind fun lt =>
      .ok {
        path_key := if classify md = .dir then rel ++ [47] else rel,
        record := {
          encoded_path_b64 := b64encode rel,
          ty := classify md,
          size := if classify md = .file then some md.len else none,
          mtime_ns := mtime_ns md.modified,
          mode := some (md.raw_mode % 4096),
          link_target := lt } }

/-- The UTF-8 replacement character U+FFFD as its three UTF-8 bytes. -/
def utf8Rep : List Nat := [239, 191, 189]

/-- `String::from_utf8_lossy`, the "lossy display projection" of the spec
(§4.1): valid UTF-8 sequences are copied through; each maximal invalid
subpart is replaced by one replacement character.  Output is again given as
UTF-8 bytes. -/
def utf8Lossy : List Nat → List Nat
  | [] => []
  | b :: rest =>
    if b < 128 then b :: utf8Lossy rest
    else if 194 ≤ b ∧ b ≤ 223 then
      match rest with
      | [] => utf8Rep
      | b2 :: r2 =>
        if 128 ≤ b2 ∧ b2 ≤ 191 then b :: b2 :: utf8Lossy r2
        else utf8Rep ++ utf8Lossy (b2 :: r2)
    else if 224 ≤ b ∧ b ≤ 239 then
      match rest with
      | [] => utf8Rep
      | b2 :: r2 =>
        if (if b = 224 then 160 ≤ b2 ∧ b2 ≤ 191
            else if b = 237 then 128 ≤ b2 ∧ b2 ≤ 159
            else 128 ≤ b2 ∧ b2 ≤ 191) then
          match r2 with
          | [] => utf8Rep
          | b3 :: r3 =>
            if 128 ≤ b3 ∧ b3 ≤ 191 then b :: b2 :: b3 :: utf8Lossy r3
            else utf8Rep ++ utf8Lossy (b3 :: r3)
        else utf8Rep ++ utf8Lossy (b2 :: r2)
    else if 240 ≤ b ∧ b ≤ 244 then
      match rest with
      | [] => utf8Rep
      | b2 :: r2 =>
        if (if b = 240 then 144 ≤ b2 ∧ b2 ≤ 191
            else if b = 244 then 128 ≤ b2 ∧ b2 ≤ 143
            else 128 ≤ b2 ∧ b2 ≤ 191) then
          match r2 with
          | [] => utf8Rep
          | b3 :: r3 =>
            if 128 ≤ b3 ∧ b3 ≤ 191 then
              match r3 with
              | [] => utf8Rep
              | b4 :: r4 =>
                if 128 ≤ b4 ∧ b4 ≤ 191 then b :: b2 :: b3 :: b4 :: utf8Lossy r4
                else utf8Rep ++ utf8Lossy (b4 :: r4)
            else utf8Rep ++ utf8Lossy (b3 :: r3)
        else utf8Rep ++ utf8Lossy (b2 :: r2)
    else utf8Rep ++ utf8Lossy rest

/-- Metadata of a plain regular file (for C6/C8 instances). -/
def fileMeta0 : MetadataSim := ⟨false, true, false, 0, 420, .ok 0⟩

/-- Metadata of a directory (for the C6 witness). -/
def dirMeta0 : MetadataSim := ⟨true, false, false, 0, 493, .ok 0⟩

/-- Metadata of a regular file whose `modified()` read fails (for C8). -/
def badMtimeMeta : MetadataSim := ⟨false, true, false, 5, 420, .error ()⟩

/-- The entry `from_rel_path` builds for `dirMeta0` at relative path "a". -/
def dirEntry0 : ManifestEntryB :=
  ⟨[97, 47], ⟨b64encode [97], .dir, none, mtime_ns (.ok 0), some (493 % 4096), none⟩⟩

/-! ## Tracking-file store (lib.rs `write_tracking_file`, lines 38-64, and
`write_tracking_file_with_content`, lines 103-116)

The state records whether the target directory exists and is a directory,
and what currently sits at `dir/filesync_tracking.txt`.  `write_tracking_file`
checks the directory, refuses a non-regular-file at the tracking path, and
opens with `create(true).read(true).write(true)` — no `truncate` — so an
existing regular file keeps its content and a missing one is created empty.
`write_tracking_file_with_content` then writes each serialized line plus a
newline from position 0 of that handle; bytes of a longer previous content
beyond the written length survive.  `data` stands for the serialized listing
produced from the walk (lib.rs:107-109); the claim under test is about the
file-content effect of the two operations. -/

inductive TrackNode where
  | regular (content : List Char) : TrackNode
  | notRegular : TrackNode
deriving DecidableEq

/-- State of the target directory and of its tracking-file path. -/
structure DirState where
  dir_exists : Bool
  is_dir : Bool
  tracking : Option TrackNode
deriving DecidableEq

/-- `write_tracking_file` (lib.rs:38-64): returns the content of the
tracking file after the acquire; `none` models a panic. -/
def write_tracking_file (s : DirState) : Option (List Char) :=
  if s.dir_exists = false ∨ s.is_dir = false then none
  else
    match s.tracking with
    | none => some []                -- created empty
    | some (.regular c) => some c    -- opened without truncation
    | some .notRegular => none       -- exists but is not a file: panic

/-- The acquire as a state transformer (the file now exists as a regular
file with the returned content). -/
def acquireState (s : DirState) : Option DirState :=
  (write_tracking_file s).map (fun c => { s with tracking := some (.regular c) })

/-- Writing `newData` from position 0 over a file holding `old`, without
truncation: the tail of `old` beyond `newData` survives. -/
def overwriteFrom (newData old : List Char) : List Char :=
  newData ++ old.drop newData.length

/-- `writeln!` of each line: every line is followed by a newline. -/
def unlinesW (lines : List (List Char)) : List Char :=
  lines.flatMap (fun l => l ++ ['\n'])

/-- `write_tracking_file_with_content` (lib.rs:103-116): acquire, then write
the serialized lines from the start of the (un-truncated) handle. -/
def write_tracking_file_with_content (s : DirState) (data : List (List Char)) :
    Option (List Char) :=
  (write_tracking_file s).map (fun old => overwriteFrom (unlinesW data) old)

/-- A directory state whose tracking file already holds four bytes. -/
def popState0 : DirState := ⟨true, true, some (.regular ['X', 'Y', 'Z', 'W'])⟩

/-! ## Manifest text model (structures.rs: `FileMeta`, `ManifestEntry`,
`Manifest::serialize` 161-186, `ManifestEntry::deserialize_entry` 105-117,
`Manifest::deserialize_manifest` 189-198, `Manifest::sort` 200-203)

Text is `List Char`.  serde serialization of a `PathBuf` and of the
`link_target` succeeds only for valid UTF-8, so modelling those fields as
char lists embeds exactly the manifests whose serialization succeeds.
JSON rendering follows serde_json's compact `to_string`; parsing follows
serde_json's `Deserializer` (leading whitespace skipped before each value,
strings with the full escape grammar including `\uXXXX` and surrogate
pairs, raw control characters rejected, numbers rejected when written with
a fraction/exponent or out of the target type's range, objects with fields
in any order, unknown fields skipped as arbitrary JSON values up to the
nesting limit of 128, duplicate known fields rejected, missing required
fields rejected). -/

/-- String-level `FileMeta` (structures.rs:24-47). -/
structure FileMetaS where
  encoded_path_b64 : List Char
  ty : NodeType
  size : Option Nat
  mtime_ns : Int
  mode : Option Nat
  link_target : Option (List Char)
deriving DecidableEq

/-- String-level `ManifestEntry` (structures.rs:50-56). -/
structure ManifestEntryS where
  path_key : List Char
  record : FileMetaS
deriving DecidableEq

/-- Range constraints imposed by the Rust field types (`u64`, `u32`,
`i128`): a Lean value satisfying them corresponds to a representable Rust
`FileMeta`. -/
def FileMetaS.wf (r : FileMetaS) : Prop :=
  (∀ n ∈ r.size, n < 2 ^ 64) ∧ (∀ n ∈ r.mode, n < 2 ^ 32) ∧
    -(2 ^ 127) ≤ r.mtime_ns ∧ r.mtime_ns < 2 ^ 127

/-- Lower-case hex digit, as used by serde_json's `\u00XX` escapes. -/
def hexDigitChar (n : Nat) : Char :=
  if n = 0 then '0' else if n = 1 then '1' else if n = 2 then '2'
  else if n = 3 then '3' else if n = 4 then '4' else if n = 5 then '5'
  else if n = 6 then '6' else if n = 7 then '7' else if n = 8 then '8'
  else if n = 9 then '9' else if n = 10 then 'a' else if n = 11 then 'b'
  else if n = 12 then 'c' else if n = 13 then 'd' else if n = 14 then 'e'
  else 'f'

/-- serde_json's escaping of one character inside a JSON string: quote and
backslash escaped, the five short control escapes, `\u00XX` for the other
control characters, everything else (including DEL and all non-ASCII)
written raw. -/
def escChar (c : Char) : List Char :=
  if c = '"' then ['\\', '"']
  else if c = '\\' then ['\\', '\\']
  else if c = '\x08' then ['\\', 'b']
  else if c = '\t' then ['\\', 't']
  else if c = '\n' then ['\\', 'n']
  else if c = '\x0c' then ['\\', 'f']
  else if c = '\r' then ['\\', 'r']
  else if c.toNat < 32 then
    '\\' :: 'u' :: '0' :: '0'
      :: hexDigitChar (c.toNat / 16) :: [hexDigitChar (c.toNat % 16)]
  else [c]

/-- serde_json rendering of a string value. -/
def renderString (s : List Char) : List Char :=
  '"' :: (s.flatMap escChar ++ ['"'])

/-- Decimal digit character. -/
def digitChar (n : Nat) : Char :=
  if n = 0 then '0' else if n = 1 then '1' else if n = 2 then '2'
  else if n = 3 then '3' else if n = 4 then '4' else if n = 5 then '5'
  else if n = 6 then '6' else if n = 7 then '7' else if n = 8 then '8'
  else '9'

/-- Decimal digits of `n`, most significant first, fuelled so that the
definition stays structurally recursive (fuel `n + 1` always suffices since
the number of digits of `n` is at most `n + 1`). -/
def natDigitsF : Nat → Nat → List Char
  | 0, _ => []
  | fuel + 1, n =>
      if n < 10 then [digitChar n]
      else natDigitsF fuel (n / 10) ++ [digitChar (n % 10)]

/-- Decimal rendering of a natural number. -/
def natDigits (n : Nat) : List Char := natDigitsF (n + 1) n

/-- Rust `Display` of a signed integer. -/
def renderInt (i : Int) : List Char :=
  if i < 0 then '-' :: natDigits (-i).toNat else natDigits i.toNat

/-- The snake_case serde name of a `NodeType` variant. -/
def tyName : NodeType → List Char
  | .file => "file".data
  | .dir => "dir".data
  | .symlink => "symlink".data
  | .other => "other".data

/-- serde_json compact rendering of a `FileMeta` record: fields in
declaration order, `size` / `mode` / `link_target` omitted when `None`
(`skip_serializing_if`), no whitespace. -/
def renderFileMeta (m : FileMetaS) : List Char :=
  ['{'] ++ renderString "encoded_path_b64".data ++ [':'] ++ renderString m.encoded_path_b64
    ++ [','] ++ renderString "ty".data ++ [':'] ++ renderString (tyName m.ty)
    ++ (match m.size with
        | none => []
        | some n => [','] ++ renderString "size".data ++ [':'] ++ natDigits n)
    ++ [','] ++ renderString "mtime_ns".data ++ [':'] ++ renderInt m.mtime_ns
    ++ (match m.mode with
        | none => []
        | some n => [','] ++ renderString "mode".data ++ [':'] ++ natDigits n)
    ++ (match m.link_target with
        | none => []
        | some s => [','] ++ renderString "link_target".data ++ [':'] ++ renderString s)
    ++ ['}']

/-- Visual display width of one character, after the unicode-width crate:
0 for control characters, 2 for the principal East-Asian wide / fullwidth /
emoji ranges, 1 otherwise.  (The crate's full Unicode table is larger; no
claim under verification depends on individual width values, only on the
width being a fixed function of the string.) -/
def charWidth (c : Char) : Nat :=
  let n := c.toNat
  if n < 32 then 0
  else if n = 127 then 0
  else if 0x1100 ≤ n ∧ n ≤ 0x115F then 2
  else if 0x2E80 ≤ n ∧ n ≤ 0xA4CF then 2
  else if 0xAC00 ≤ n ∧ n ≤ 0xD7A3 then 2
  else if 0xF900 ≤ n ∧ n ≤ 0xFAFF then 2
  else if 0xFE30 ≤ n ∧ n ≤ 0xFE4F then 2
  else if 0xFF00 ≤ n ∧ n ≤ 0xFF60 then 2
  else if 0xFFE0 ≤ n ∧ n ≤ 0xFFE6 then 2
  else if 0x1F300 ≤ n ∧ n ≤ 0x1F9FF then 2
  else if 0x20000 ≤ n ∧ n ≤ 0x3FFFD then 2
  else 1

/-- `UnicodeWidthStr::width`: sum of character widths. -/
def strWidth (s : List Char) : Nat := (s.map charWidth).sum

/-- `ManifestEntry::serialize_entry` (structures.rs:119-125): the pair
(path-key JSON, record JSON). -/
def serialize_entry (e : ManifestEntryS) : List Char × List Char :=
  (renderString e.path_key, renderFileMeta e.record)

/-- `" ".repeat n`. -/
def spaces (n : Nat) : List Char := List.replicate n ' '

/-- `String` order for the final `lines.par_sort_unstable()`: byte-wise,
embedded as code-point order (UTF-8 is order-preserving). -/
def lineLe (a b : List Char) : Bool := !charListLt b a

/-- `Manifest::serialize`, stage 1 (structures.rs:163-165): render every
entry to a (key, record) pair. -/
def manifestPairs (m : List ManifestEntryS) : List (List Char × List Char) :=
  m.map serialize_entry

/-- `Manifest::serialize`, stage 2 (structures.rs:169-173): records start at
the maximum visual key width plus two. -/
def manifestPad (m : List ManifestEntryS) : Nat :=
  ((manifestPairs m).map (fun p => strWidth p.1)).foldr max 0 + 2

/-- `Manifest::serialize`, stage 3 (structures.rs:176-182): key, padding
spaces (saturating), record. -/
def manifestLines (m : List ManifestEntryS) : List (List Char) :=
  (manifestPairs m).map (fun p => p.1 ++ spaces (manifestPad m - strWidth p.1) ++ p.2)

/-- `Manifest::serialize` (structures.rs:161-186): the rendered text lines,
sorted as whole strings (structures.rs:184). -/
def manifest_serialize (m : List ManifestEntryS) : List (List Char) :=
  sortByLe lineLe (manifestLines m)

/-- A minimal record used by concrete manifests in the theorems below. -/
def fmGeneric : FileMetaS := ⟨"YQ".data, .file, none, 0, none, none⟩

/-- Entry with path key `a`. -/
def entA : ManifestEntryS := ⟨"a".data, fmGeneric⟩

/-- Entry with path key `b`. -/
def entB : ManifestEntryS := ⟨"b".data, fmGeneric⟩

/-- Entry with path key `a/c` (inside directory `a`). -/
def entAC : ManifestEntryS := ⟨"a/c".data, fmGeneric⟩

/-- Entry with path key `a-b`. -/
def entAB : ManifestEntryS := ⟨"a-b".data, fmGeneric⟩

/-- Two-line manifest text whose keys are `a/c` and `a-b`: byte-wise the
order is `a-b` < `a/c` (0x2D < 0x2F), component-wise it is the reverse. -/
def c5content : List Char :=
  renderString "a/c".data ++ [' '] ++ renderFileMeta fmGeneric ++ ['\n']
    ++ renderString "a-b".data ++ [' '] ++ renderFileMeta fmGeneric

/-! ### serde_json parsing -/

/-- JSON whitespace (serde_json skips space, tab, newline, carriage
return between tokens). -/
def isWsChar (c : Char) : Bool := c = ' ' || c = '\t' || c = '\n' || c = '\r'

/-- Skip leading JSON whitespace. -/
def skipWs : List Char → List Char
  | [] => []
  | c :: cs => if isWsChar c then skipWs cs else c :: cs

/-- Hex digit value (both cases accepted in `\uXXXX`). -/
def hexVal (c : Char) : Option Nat :=
  if 48 ≤ c.toNat ∧ c.toNat ≤ 57 then some (c.toNat - 48)
  else if 97 ≤ c.toNat ∧ c.toNat ≤ 102 then some (c.toNat - 87)
  else if 65 ≤ c.toNat ∧ c.toNat ≤ 70 then some (c.toNat - 55)
  else none

/-- Four hex digits as a code unit value. -/
def hex4 (a b c d : Char) : Option Nat :=
  (hexVal a).bind fun va => (hexVal b).bind fun vb => (hexVal c).bind fun vc =>
    (hexVal d).map fun vd => 4096 * va + 256 * vb + 16 * vc + vd

/-- A `\uXXXX` escape body (after the `u`): a non-surrogate code unit
becomes that scalar; a leading surrogate must be followed by `\uXXXX` with
a trailing surrogate (combined into one scalar); a lone surrogate is an
error, as in serde_json. -/
def parseUEscape (cs : List Char) : Option (Char × List Char) :=
  match cs with
  | h1 :: h2 :: h3 :: h4 :: cs3 =>
    (hex4 h1 h2 h3 h4).bind fun n =>
      if n < 0xD800 ∨ 0xDFFF < n then some (Char.ofNat n, cs3)
      else if 0xDC00 ≤ n then none
      else
        match cs3 with
        | b1 :: b2 :: g1 :: g2 :: g3 :: g4 :: cs4 =>
          if b1 = '\\' ∧ b2 = 'u' then
            (hex4 g1 g2 g3 g4).bind fun m =>
              if 0xDC00 ≤ m ∧ m ≤ 0xDFFF then
                some (Char.ofNat (0x10000 + (n - 0xD800) * 1024 + (m - 0xDC00)), cs4)
              else none
          else none
        | _ => none
  | _ => none

/-- One escape sequence (after the backslash): the eight short escapes or a
`\u` escape; anything else is an error. -/
def parseEscape (cs : List Char) : Option (Char × List Char) :=
  match cs with
  | [] => none
  | e :: cs2 =>
    if e = '"' then some ('"', cs2)
    else if e = '\\' then some ('\\', cs2)
    else if e = '/' then some ('/', cs2)
    else if e = 'b' then some ('\x08', cs2)
    else if e = 'f' then some ('\x0c', cs2)
    else if e = 'n' then some ('\n', cs2)
    else if e = 'r' then some ('\r', cs2)
    else if e = 't' then some ('\t', cs2)
    else if e = 'u' then parseUEscape cs2
    else none

/-- serde_json string-body parser, applied after the opening quote, fuelled
so that the definition is structurally recursive (each step consumes at
least one character, so the callers' fuel of input length + 1 never runs
out).  Returns the decoded content and the input after the closing quote.
Raw control characters are rejected. -/
def parseStrAuxF : Nat → List Char → Option (List Char × List Char)
  | 0, _ => none
  | fuel + 1, s =>
    match s with
    | [] => none
    | c :: cs =>
      if c = '"' then some ([], cs)
      else if c = '\\' then
        (parseEscape cs).bind fun pe =>
          (parseStrAuxF fuel pe.2).map fun p => (pe.1 :: p.1, p.2)
      else if c.toNat < 32 then none
      else (parseStrAuxF fuel cs).map fun p => (c :: p.1, p.2)

/-- serde_json string-body parse with always-sufficient fuel. -/
def parseStrAux (s : List Char) : Option (List Char × List Char) :=
  parseStrAuxF (s.length + 1) s

/-- Parse a JSON string value (leading whitespace allowed, as in serde's
`Deserializer`). -/
def parseWsString (s : List Char) : Option (List Char × List Char) :=
  match skipWs s with
  | '"' :: r => parseStrAux r
  | _ => none

/-- Decimal digit test. -/
def isDigitC (c : Char) : Bool := 48 ≤ c.toNat && c.toNat ≤ 57

/-- Maximal run of decimal digits and the remaining input. -/
def takeDigits : List Char → List Char × List Char
  | [] => ([], [])
  | c :: cs =>
      if isDigitC c then
        match takeDigits cs with
        | (ds, r) => (c :: ds, r)
      else ([], c :: cs)

/-- Value of a digit run (most significant first). -/
def digitsVal (ds : List Char) : Nat :=
  ds.foldl (fun a c => 10 * a + (c.toNat - 48)) 0

/-- serde_json unsigned-integer value parse: at least one digit, no
superfluous leading zero, and the value must not continue as a float
(a following `.` or exponent makes the number a float, which the integer
field types reject). -/
def parseJsonUInt (s : List Char) : Option (Nat × List Char) :=
  match takeDigits s with
  | ([], _) => none
  | (d :: ds, r) =>
      if d = '0' ∧ ds ≠ [] then none
      else if r.head? = some '.' ∨ r.head? = some 'e' ∨ r.head? = some 'E' then none
      else some (digitsVal (d :: ds), r)

/-- Signed integer value parse (optional minus sign). -/
def parseJsonIntRaw (s : List Char) : Option (Int × List Char) :=
  if s.head? = some '-' then (parseJsonUInt s.tail).map (fun p => (-(p.1 : Int), p.2))
  else (parseJsonUInt s).map (fun p => ((p.1 : Int), p.2))

/-- `u64` with its range check. -/
def parseU64 (s : List Char) : Option (Nat × List Char) :=
  (parseJsonUInt s).bind fun p => if p.1 < 2 ^ 64 then some p else none

/-- `u32` with its range check. -/
def parseU32 (s : List Char) : Option (Nat × List Char) :=
  (parseJsonUInt s).bind fun p => if p.1 < 2 ^ 32 then some p else none

/-- `i128` with its range check, leading whitespace skipped. -/
def parseI128Ws (s : List Char) : Option (Int × List Char) :=
  (parseJsonIntRaw (skipWs s)).bind fun p =>
    if -(2 ^ 127) ≤ p.1 ∧ p.1 < 2 ^ 127 then some p else none

/-- Fraction part of a skipped (ignored) JSON number. -/
def skipFrac : List Char → Option (List Char)
  | '.' :: r =>
      (match takeDigits r with
       | ([], _) => none
       | (_ :: _, r2) => some r2)
  | s => some s

/-- Exponent digits (with optional sign) of a skipped JSON number. -/
def skipExpDigits (s : List Char) : Option (List Char) :=
  let s1 := match s with | '+' :: r => r | '-' :: r => r | _ => s
  match takeDigits s1 with
  | ([], _) => none
  | (_ :: _, r) => some r

/-- Exponent part of a skipped JSON number. -/
def skipExp : List Char → Option (List Char)
  | 'e' :: r => skipExpDigits r
  | 'E' :: r => skipExpDigits r
  | s => some s

/-- Skip a full JSON number (serde's grammar; used only for ignored
unknown-field values, where floats are legal). -/
def skipNumber (s : List Char) : Option (List Char) :=
  let s1 := match s with | '-' :: r => r | _ => s
  match takeDigits s1 with
  | ([], _) => none
  | (d :: ds, r) =>
      if d = '0' ∧ ds ≠ [] then none
      else (skipFrac r).bind skipExp

mutual
/-- Skip an arbitrary (ignored) JSON value.  `depth` models serde_json's
remaining recursion depth (limit 128, checked when entering a container);
`fuel` only makes the mutual recursion structural — every recursive call
consumes input, so the fuel the callers supply (twice the input length)
never runs out on an input serde accepts. -/
def skipValue : Nat → Nat → List Char → Option (List Char)
  | _, 0, _ => none
  | depth, fuel + 1, s =>
    match skipWs s with
    | '"' :: r => (parseStrAux r).map (fun p => p.2)
    | 't' :: 'r' :: 'u' :: 'e' :: r => some r
    | 'f' :: 'a' :: 'l' :: 's' :: 'e' :: r => some r
    | 'n' :: 'u' :: 'l' :: 'l' :: r => some r
    | '{' :: r => if depth = 0 then none else skipObjBody (depth - 1) fuel r
    | '[' :: r => if depth = 0 then none else skipArrBody (depth - 1) fuel r
    | s1 => skipNumber s1

/-- Body of a skipped object after `{`: empty or members. -/
def skipObjBody : Nat → Nat → List Char → Option (List Char)
  | _, 0, _ => none
  | depth, fuel + 1, s =>
    match skipWs s with
    | '}' :: r => some r
    | s1 => skipObjMember depth fuel s1

/-- One `"key": value` member of a skipped object, then the tail. -/
def skipObjMember : Nat → Nat → List Char → Option (List Char)
  | _, 0, _ => none
  | depth, fuel + 1, s =>
    (parseWsString s).bind fun p =>
      match skipWs p.2 with
      | ':' :: r => (skipValue depth fuel r).bind fun r2 => skipObjTail depth fuel r2
      | _ => none

/-- After a member: `, member ...` or `}`. -/
def skipObjTail : Nat → Nat → List Char → Option (List Char)
  | _, 0, _ => none
  | depth, fuel + 1, s =>
    match skipWs s with
    | ',' :: r => skipObjMember depth fuel r
    | '}' :: r => some r
    | _ => none

/-- Body of a skipped array after `[`: empty or values. -/
def skipArrBody : Nat → Nat → List Char → Option (List Char)
  | _, 0, _ => none
  | depth, fuel + 1, s =>
    match skipWs s with
    | ']' :: r => some r
    | s1 => (skipValue depth fuel s1).bind fun r2 => skipArrTail depth fuel r2

/-- After an array element: `, value ...` or `]`. -/
def skipArrTail : Nat → Nat → List Char → Option (List Char)
  | _, 0, _ => none
  | depth, fuel + 1, s =>
    match skipWs s with
    | ',' :: r => (skipValue depth fuel r).bind fun r2 => skipArrTail depth fuel r2
    | ']' :: r => some r
    | _ => none
end

/-- The `ty` field value: a string equal to one snake_case variant name. -/
def parseTyValue (s : List Char) : Option (NodeType × List Char) :=
  (parseWsString s).bind fun p =>
    if p.1 = "file".data then some (.file, p.2)
    else if p.1 = "dir".data then some (.dir, p.2)
    else if p.1 = "symlink".data then some (.symlink, p.2)
    else if p.1 = "other".data then some (.other, p.2)
    else none

/-- An `Option<u64>` field value: `null` or an in-range unsigned integer. -/
def parseOptU64 (s : List Char) : Option (Option Nat × List Char) :=
  if (skipWs s).take 4 = "null".data then some (none, (skipWs s).drop 4)
  else (parseU64 (skipWs s)).map (fun p => (some p.1, p.2))

/-- An `Option<u32>` field value. -/
def parseOptU32 (s : List Char) : Option (Option Nat × List Char) :=
  if (skipWs s).take 4 = "null".data then some (none, (skipWs s).drop 4)
  else (parseU32 (skipWs s)).map (fun p => (some p.1, p.2))

/-- An `Option<PathBuf>` field value: `null` or a string. -/
def parseOptString (s : List Char) : Option (Option (List Char) × List Char) :=
  if (skipWs s).take 4 = "null".data then some (none, (skipWs s).drop 4)
  else if (skipWs s).head? = some '"' then
    (parseStrAux (skipWs s).tail).map (fun p => (some p.1, p.2))
  else none

/-- Accumulator for the serde-derived `FileMeta` map visitor: which fields
have been seen (seeing one twice is a `duplicate field` error), and their
values. -/
structure FMAcc where
  epb : Option (List Char)
  ty : Option NodeType
  size : Option (Option Nat)
  mt : Option Int
  mode : Option (Option Nat)
  lt : Option (Option (List Char))
deriving DecidableEq

/-- No fields seen yet. -/
def emptyFMAcc : FMAcc := ⟨none, none, none, none, none, none⟩

/-- One `"key": value` member of the record object: a known key parses its
typed value (duplicates rejected), an unknown key's value is skipped as an
arbitrary JSON value (serde's default unknown-field behaviour) at the
remaining depth 127. -/
def parseFMMember (fuel : Nat) (acc : FMAcc) (s : List Char) :
    Option (FMAcc × List Char) :=
  (parseWsString s).bind fun pk =>
    if (skipWs pk.2).head? = some ':' then
      if pk.1 = "encoded_path_b64".data then
        if acc.epb.isSome then none
        else (parseWsString (skipWs pk.2).tail).map
          (fun p => ({ acc with epb := some p.1 }, p.2))
      else if pk.1 = "ty".data then
        if acc.ty.isSome then none
        else (parseTyValue (skipWs pk.2).tail).map
          (fun p => ({ acc with ty := some p.1 }, p.2))
      else if pk.1 = "size".data then
        if acc.size.isSome then none
        else (parseOptU64 (skipWs pk.2).tail).map
          (fun p => ({ acc with size := some p.1 }, p.2))
      else if pk.1 = "mtime_ns".data then
        if acc.mt.isSome then none
        else (parseI128Ws (skipWs pk.2).tail).map
          (fun p => ({ acc with mt := some p.1 }, p.2))
      else if pk.1 = "mode".data then
        if acc.mode.isSome then none
        else (parseOptU32 (skipWs pk.2).tail).map
          (fun p => ({ acc with mode := some p.1 }, p.2))
      else if pk.1 = "link_target".data then
        if acc.lt.isSome then none
        else (parseOptString (skipWs pk.2).tail).map
          (fun p => ({ acc with lt := some p.1 }, p.2))
      else (skipValue 127 fuel (skipWs pk.2).tail).map (fun r2 => (acc, r2))
    else none

/-- Member loop of the record object: `, member ...` or the closing `}`. -/
def parseFMLoop : Nat → FMAcc → List Char → Option (FMAcc × List Char)
  | 0, _, _ => none
  | fuel + 1, acc, s =>
    if (skipWs s).head? = some ',' then
      (parseFMMember fuel acc (skipWs s).tail).bind fun p => parseFMLoop fuel p.1 p.2
    else if (skipWs s).head? = some '}' then some (acc, (skipWs s).tail)
    else none

/-- End of the record object: the three non-`Option` fields are required
(`missing field` otherwise); absent `Option` fields default to `None`. -/
def finalizeFM (acc : FMAcc) : Option FileMetaS :=
  match acc.epb, acc.ty, acc.mt with
  | some epb, some ty, some mt =>
      some ⟨epb, ty, acc.size.getD none, mt, acc.mode.getD none, acc.lt.getD none⟩
  | _, _, _ => none

/-- `FileMeta::deserialize` on a serde_json `Deserializer`: leading
whitespace, `{`, members in any order, `}`. -/
def parseFileMeta (s : List Char) : Option (FileMetaS × List Char) :=
  if (skipWs s).head? = some '{' then
    if (skipWs (skipWs s).tail).head? = some '}' then
      (finalizeFM emptyFMAcc).map (fun m => (m, (skipWs (skipWs s).tail).tail))
    else
      (parseFMMember (2 * s.length + 2) emptyFMAcc (skipWs (skipWs s).tail)).bind fun p =>
      (parseFMLoop (2 * s.length + 2) p.1 p.2).bind fun q =>
      (finalizeFM q.1).map (fun m => (m, q.2))
  else none

/-- `ManifestEntry::deserialize_entry` (structures.rs:105-117): the leading
JSON string (the path key, a `PathBuf` built from the decoded string), then
the record object, then `Deserializer::end` — whitespace-only trailing
content; anything else is a fatal parse error, modelled as `none`. -/
def deserialize_entry (line : List Char) : Option ManifestEntryS :=
  (parseWsString line).bind fun pk =>
    (parseFileMeta pk.2).bind fun pm =>
      if (skipWs pm.2).isEmpty then some ⟨pk.1, pm.1⟩ else none

/-- Split at every newline (keeping a final empty segment for a trailing
newline). -/
def splitNlStrict : List Char → List (List Char)
  | [] => [[]]
  | c :: r =>
    if c = '\n' then [] :: splitNlStrict r
    else
      match splitNlStrict r with
      | [] => [[c]]
      | p :: ps => (c :: p) :: ps

/-- Remove one trailing carriage return (a line that ended in `\r\n`). -/
def stripCr (l : List Char) : List Char :=
  if l.getLast? = some '\r' then l.dropLast else l

/-- Rust `str::lines`: split on `\n`, strip a `\r` preceding each `\n`, no
empty final line for a trailing newline. -/
def rustLines (s : List Char) : List (List Char) :=
  match (splitNlStrict s).reverse with
  | [] => []
  | lastP :: revInit =>
      if lastP = [] then revInit.reverse.map stripCr
      else revInit.reverse.map stripCr ++ [lastP]

/-! ### Path ordering (`PathBuf`/`Path` `Ord`): component-wise -/

/-- `std::path::Component` for a Unix path without a prefix. -/
inductive PathComp where
  | rootDir : PathComp
  | curDir : PathComp
  | parentDir : PathComp
  | normal (s : List Char) : PathComp
deriving DecidableEq

/-- Split at every `/`. -/
def splitSlash : List Char → List (List Char)
  | [] => [[]]
  | '/' :: r => [] :: splitSlash r
  | c :: r =>
    match splitSlash r with
    | [] => [[c]]
    | p :: ps => (c :: p) :: ps

/-- Path body components: empty segments and non-leading `.` segments are
dropped; `..` is `ParentDir`. -/
def bodyComps (parts : List (List Char)) : List PathComp :=
  (parts.filter (fun p => decide (p ≠ [] ∧ p ≠ ['.']))).map
    (fun p => if p = ['.', '.'] then PathComp.parentDir else PathComp.normal p)

/-- `Path::components` of a Unix path given as text: a leading `/` is
`RootDir`; a leading lone `.` segment of a relative path is `CurDir`. -/
def pathComponents (s : List Char) : List PathComp :=
  match s with
  | '/' :: _ => PathComp.rootDir :: bodyComps (splitSlash s)
  | _ =>
    (match splitSlash s with
     | p :: _ => if p = ['.'] then [PathComp.curDir] else []
     | [] => []) ++ bodyComps (splitSlash s)

/-- Three-way byte-wise comparison of char lists (OsStr comparison). -/
def charListCmp : List Char → List Char → Ordering
  | [], [] => .eq
  | [], _ :: _ => .lt
  | _ :: _, [] => .gt
  | a :: as, b :: bs =>
      if a.toNat < b.toNat then .lt
      else if b.toNat < a.toNat then .gt
      else charListCmp as bs

/-- Variant rank of a component (the `derive(Ord)` order of
`std::path::Component`). -/
def compRank : PathComp → Nat
  | .rootDir => 0
  | .curDir => 1
  | .parentDir => 2
  | .normal _ => 3

/-- `Ord` on one component: distinct variants by declaration order,
`Normal` contents byte-wise. -/
def pathCompCmp : PathComp → PathComp → Ordering
  | .normal a, .normal b => charListCmp a b
  | a, b =>
      if compRank a < compRank b then .lt
      else if compRank b < compRank a then .gt
      else .eq

/-- Lexicographic comparison of lists under a comparator. -/
def listCmpWith (cmp : α → α → Ordering) : List α → List α → Ordering
  | [], [] => .eq
  | [], _ :: _ => .lt
  | _ :: _, [] => .gt
  | a :: as, b :: bs =>
      match cmp a b with
      | .eq => listCmpWith cmp as bs
      | o => o

/-- `PathBuf` ordering (`Path::cmp` compares components). -/
def pathKeyCmp (a b : List Char) : Ordering :=
  listCmpWith pathCompCmp (pathComponents a) (pathComponents b)

/-- `o ≠ Ordering::Greater` as the `≤` of a comparator. -/
def ordNotGt : Ordering → Bool
  | .gt => false
  | _ => true

/-- The comparator of `Manifest::sort` (structures.rs:200-203):
`a.path_key.cmp(&b.path_key)` on `PathBuf`s. -/
def entryLe (a b : ManifestEntryS) : Bool :=
  ordNotGt (pathKeyCmp a.path_key b.path_key)

/-- `Manifest::deserialize_manifest` (structures.rs:189-198): non-empty
lines, strict per-line parse (any failure is fatal → `none`), then
`Manifest::sort` by `path_key`. -/
def deserialize_manifest (content : List Char) : Option (List ManifestEntryS) :=
  (((rustLines content).filter (fun l => !l.isEmpty)).mapM deserialize_entry).map
    (sortByLe entryLe)


end Filesync

namespace Filesync

/-- The alphabet lookup inverts the alphabet index for every 6-bit value. -/
theorem b64val_b64char : ∀ v : Nat, v < 64 → b64val (b64char v) = some v := by decide

/-- Claim C1: for every byte sequence (any bytes, including NUL, newline and
invalid UTF-8), decoding the no-padding base64 text produced by the encoder
used in `ManifestEntry::from_rel_path` returns exactly the input bytes. -/
theorem b64_decode_encode (bs : List Nat) (h : ∀ x ∈ bs, x < 256) :
    b64decode (b64encode bs) = some bs := by
  induction bs using b64encode.induct with
  | case1 =>
      simp [b64encode, b64decode]
  | case2 x =>
      have hx : x < 256 := h x (by simp)
      simp only [b64encode, b64decode]
      rw [b64val_b64char _ (by omega), b64val_b64char _ (by omega)]
      simp only [Option.some_bind]
      rw [if_pos (by omega)]
      simp only [Option.some.injEq, List.cons.injEq, and_true]
      omega
  | case3 x y =>
      have hx : x < 256 := h x (by simp)
      have hy : y < 256 := h y (by simp)
      simp only [b64encode, b64decode]
      rw [b64val_b64char _ (by omega), b64val_b64char _ (by omega),
        b64val_b64char _ (by omega)]
      simp only [Option.some_bind]
      rw [if_pos (by omega)]
      simp only [Option.some.injEq, List.cons.injEq, and_true]
      omega
  | case4 x y z rest ih =>
      have hx : x < 256 := h x (by simp)
      have hy : y < 256 := h y (by simp)
      have hz : z < 256 := h z (by simp)
      have hrest : ∀ w ∈ rest, w < 256 := fun w hw => h w (by simp [hw])
      simp only [b64encode, b64decode]
      rw [b64val_b64char _ (by omega), b64val_b64char _ (by omega),
        b64val_b64char _ (by omega), b64val_b64char _ (by omega), ih hrest]
      simp only [Option.some_bind, Option.some.injEq, List.cons.injEq, and_true]
      omega

/-- Witness for C1 at a concrete byte sequence containing a NUL byte, a
newline and an invalid-UTF-8 byte. -/
theorem b64_decode_encode_witness :
    (∀ x ∈ [0, 10, 255, 47, 97], x < 256) ∧
      b64decode (b64encode [0, 10, 255, 47, 97]) = some [0, 10, 255, 47, 97] :=
  ⟨by decide, b64_decode_encode [0, 10, 255, 47, 97] (by decide)⟩

/-- Inserting into a list is a permutation of consing. -/
theorem orderedInsertB_perm (le : α → α → Bool) (a : α) (l : List α) :
    (orderedInsertB le a l).Perm (a :: l) := by
  induction l with
  | nil => simp [orderedInsertB]
  | cons b l ih =>
    simp only [orderedInsertB]
    by_cases h : le a b = true
    · simp [h]
    · rw [if_neg h]
      exact (ih.cons b).trans (List.Perm.swap a b l)

/-- Insertion sort permutes its input. -/
theorem sortByLe_perm (le : α → α → Bool) (l : List α) : (sortByLe le l).Perm l := by
  induction l with
  | nil => simp [sortByLe]
  | cons a l ih =>
    exact (orderedInsertB_perm le a (sortByLe le l)).trans (ih.cons a)

/-- Inserting into a sorted list keeps it sorted, given transitivity and
totality of the order. -/
theorem sorted_orderedInsertB (le : α → α → Bool)
    (htrans : ∀ a b c, le a b = true → le b c = true → le a c = true)
    (htotal : ∀ a b, le a b = true ∨ le b a = true)
    (a : α) (l : List α) (h : List.Sorted (le · · = true) l) :
    List.Sorted (le · · = true) (orderedInsertB le a l) := by
  induction l with
  | nil => simp [orderedInsertB]
  | cons b l ih =>
    simp only [orderedInsertB]
    by_cases hab : le a b = true
    · rw [if_pos hab]
      refine List.Pairwise.cons ?_ h
      intro x hx
      rcases List.mem_cons.mp hx with rfl | hx
      · exact hab
      · exact htrans a b x hab (List.rel_of_sorted_cons h x hx)
    · rw [if_neg hab]
      have hba : le b a = true := (htotal a b).resolve_left hab
      refine List.Pairwise.cons ?_ (ih h.of_cons)
      intro x hx
      have hx' := (orderedInsertB_perm le a l).mem_iff.mp hx
      rcases List.mem_cons.mp hx' with rfl | hx'
      · exact hba
      · exact List.rel_of_sorted_cons h x hx'

/-- Insertion sort sorts, given transitivity and totality of the order. -/
theorem sorted_sortByLe (le : α → α → Bool)
    (htrans : ∀ a b c, le a b = true → le b c = true → le a c = true)
    (htotal : ∀ a b, le a b = true ∨ le b a = true)
    (l : List α) : List.Sorted (le · · = true) (sortByLe le l) := by
  induction l with
  | nil => simp [sortByLe]
  | cons a l ih => exact sorted_orderedInsertB le htrans htotal a (sortByLe le l) ih

/-- With no prefix list, the walk visits exactly the tree's relative paths
(each shifted by the starting relative path). -/
theorem walkFs_none_eq :
    (∀ (node : FsNode) (rel : List String),
        walkFs none rel node = (treeRels node).map (fun r => rel ++ r)) ∧
      (∀ (l : List (String × FsNode)) (rel : List String),
        walkFsChildren none rel l = (treeRelsChildren l).map (fun r => rel ++ r)) := by
  refine treeRels.mutual_induct
    (fun node => ∀ rel, walkFs none rel node = (treeRels node).map (fun r => rel ++ r))
    (fun l => ∀ rel, walkFsChildren none rel l = (treeRelsChildren l).map (fun r => rel ++ r))
    ?_ ?_ ?_ ?_
  · intro children ih rel
    simp [walkFs, treeRels, filterEntryPred, ih rel]
  · intro t hne rel
    cases t with
    | dir children => exact absurd rfl (hne children)
    | file => simp [walkFs, treeRels, filterEntryPred]
    | symlink => simp [walkFs, treeRels, filterEntryPred]
    | other => simp [walkFs, treeRels, filterEntryPred]
  · intro rel
    simp [walkFsChildren, treeRelsChildren]
  · intro name child rest ih1 ih2 rel
    have hassoc : ∀ r : List String, rel ++ [name] ++ r = rel ++ name :: r := by
      intro r; simp
    simp [walkFsChildren, treeRelsChildren, ih1, ih2, List.map_map, Function.comp_def, hassoc]

/-- Membership in the unfiltered discovery output: exactly the tree's
relative paths except the root and the path equal to the reserved name. -/
theorem discoverPaths_mem_none (t : FsNode) (p : List String) :
    p ∈ discoverPaths t none ↔ p ∈ treeRels t ∧ p ≠ [] ∧ p ≠ [trackingFilename] := by
  unfold discoverPaths
  rw [(sortByLe_perm _ _).mem_iff, List.mem_filter, List.mem_filter]
  have hwalk : walkFs none [] t = treeRels t := by
    rw [walkFs_none_eq.1 t []]; simp
  rw [hwalk]
  simp [and_assoc, List.isEmpty_iff]

/-- Claim C10: the walk excludes the reserved manifest filename only when it
is the entire relative path; a nested `f4/filesync_tracking.txt` is kept,
while the exact path `filesync_tracking.txt` and the root (depth 0) are
excluded. -/
theorem tracking_exclusion_exact_only :
    (∀ (t : FsNode) (p : List String),
        p ∈ discoverPaths t none ↔ p ∈ treeRels t ∧ p ≠ [] ∧ p ≠ [trackingFilename]) ∧
      ["f4", trackingFilename] ∈ discoverPaths c10Tree none ∧
      [trackingFilename] ∉ discoverPaths c10Tree none ∧
      [] ∉ discoverPaths c10Tree none :=
  ⟨discoverPaths_mem_none, by decide, by decide, by decide⟩

/-- Claim C3 (evaluation at the failing input): with the allowed prefix list
`{"sub/a"}` the code prunes the directory `sub` itself — its path does not
start with `sub/a` — so the walk yields nothing at all: the entry
`sub/a/x.txt` demanded by the claim is absent (and so is everything under
`sub/b`).  With the single-component prefix `{"sub"}` the same entry is
present, isolating the ancestor-pruning slip. -/
theorem prefix_filter_prunes_unmatched_ancestors :
    discoverPaths c3Tree (some [["sub", "a"]]) = [] ∧
      ["sub", "a", "x.txt"] ∈ treeRels c3Tree ∧
      ["sub", "a", "x.txt"] ∉ discoverPaths c3Tree (some [["sub", "a"]]) ∧
      ["sub", "b", "y.txt"] ∉ discoverPaths c3Tree (some [["sub", "a"]]) ∧
      ["sub", "a", "x.txt"] ∈ discoverPaths c3Tree (some [["sub"]]) := by
  refine ⟨by decide, by decide, by decide, by decide, by decide⟩

/-- Counterexample to C6: at the relative path consisting of the single
(invalid-UTF-8) byte 0xFF, the constructed `path_key` holds the raw byte
unchanged, whereas the lossy display projection replaces it with U+FFFD, so
`path_key` is not the lossy projection of the path bytes. -/
theorem path_key_not_lossy_projection :
    (from_rel_path (.ok fileMeta0) (.ok []) [255]).toOption.map (fun e => e.path_key)
        = some [255] ∧
      utf8Lossy [255] = [239, 191, 189] ∧ ([255] : List Nat) ≠ [239, 191, 189] :=
  ⟨rfl, rfl, by decide⟩

/-- Amended C6: `from_rel_path` stores the relative path's raw bytes as
`path_key` unchanged (coinciding with the lossy projection only when the
bytes are valid UTF-8), with `/` appended iff the node is a directory and
never for any other node type. -/
theorem path_key_raw_bytes_slash_iff_dir (md : MetadataSim)
    (rl : Except Unit (List Nat)) (rel : List Nat) (e : ManifestEntryB)
    (hok : from_rel_path (.ok md) rl rel = .ok e)
    (hns : rel.getLast? ≠ some 47) :
    e.path_key = (if classify md = .dir then rel ++ [47] else rel) ∧
      (e.path_key.getLast? = some 47 ↔ classify md = .dir) := by
  unfold from_rel_path at hok
  simp only [Except.bind] at hok
  rcases hlt : (if classify md = NodeType.symlink then Except.map some rl else
      (.ok none : Except Unit (Option (List Nat)))) with e' | lt
  · rw [hlt] at hok; cases hok
  · rw [hlt] at hok
    simp only [Except.ok.injEq] at hok
    subst hok
    dsimp only
    refine ⟨rfl, ?_⟩
    by_cases hdir : classify md = .dir
    · rw [if_pos hdir, List.getLast?_concat]
      simp [hdir]
    · rw [if_neg hdir]
      constructor
      · intro hlast; exact absurd hlast hns
      · intro hd; exact absurd hd hdir

/-- Witness for the amended C6 at a directory node and at the relative path
"a" (byte 97): the path key is `a/` and ends in a slash. -/
theorem path_key_raw_bytes_slash_iff_dir_witness :
    from_rel_path (.ok dirMeta0) (.ok []) [97] = .ok dirEntry0 ∧
      ([97] : List Nat).getLast? ≠ some 47 ∧
      dirEntry0.path_key = (if classify dirMeta0 = .dir then [97] ++ [47] else [97]) ∧
      (dirEntry0.path_key.getLast? = some 47 ↔ classify dirMeta0 = .dir) :=
  ⟨rfl, by decide,
    (path_key_raw_bytes_slash_iff_dir dirMeta0 (.ok []) [97] dirEntry0 rfl (by decide)).1,
    (path_key_raw_bytes_slash_iff_dir dirMeta0 (.ok []) [97] dirEntry0 rfl (by decide)).2⟩

/-- Counterexample to C8: when the `modified()` read fails, the source
substitutes `UNIX_EPOCH` (`unwrap_or`, structures.rs:214) and entry
construction succeeds with the default `mtime_ns = 0` instead of failing
fatally. -/
theorem mtime_error_defaults_to_epoch :
    mtime_ns (.error ()) = 0 ∧
      (from_rel_path (.ok badMtimeMeta) (.ok []) [97]).toOption.map
          (fun e => e.record.mtime_ns) = some 0 :=
  ⟨rfl, rfl⟩

/-- Amended C8: a `symlink_metadata` failure and (for symlinks) a
`read_link` failure abort entry construction, but a failed `modified()`
read is silently downgraded to the epoch default, recording `mtime_ns = 0`. -/
theorem metadata_failures_fatal_except_mtime (md : MetadataSim)
    (rl : Except Unit (List Nat)) (rel : List Nat)
    (hmod : md.modified = .error ()) :
    from_rel_path (.error ()) rl rel = .error () ∧
      (classify md = .symlink → from_rel_path (.ok md) (.error ()) rel = .error ()) ∧
      (classify md ≠ .symlink →
        ∃ e, from_rel_path (.ok md) rl rel = .ok e ∧ e.record.mtime_ns = 0) := by
  refine ⟨rfl, ?_, ?_⟩
  · intro hsym
    unfold from_rel_path
    simp only [Except.bind]
    rw [if_pos hsym]
    rfl
  · intro hsym
    unfold from_rel_path
    simp only [Except.bind]
    rw [if_neg hsym]
    refine ⟨_, rfl, ?_⟩
    simp [mtime_ns, hmod]

/-- Witness for the amended C8 at a regular file whose mtime read fails. -/
theorem metadata_failures_fatal_except_mtime_witness :
    badMtimeMeta.modified = .error () ∧ classify badMtimeMeta ≠ .symlink ∧
      ∃ e, from_rel_path (.ok badMtimeMeta) (.ok []) [97] = .ok e ∧
        e.record.mtime_ns = 0 :=
  ⟨rfl, by decide,
    (metadata_failures_fatal_except_mtime badMtimeMeta (.ok []) [97] rfl).2.2 (by decide)⟩

/-- Counterexample to C9: over a four-byte previous content, writing the
one-line listing `A` leaves `A\nZW` — the write starts at position 0 but
never truncates, so the old tail survives and the file content is not
exactly the newly serialized listing. -/
theorem with_content_does_not_truncate :
    write_tracking_file_with_content popState0 [['A']] = some ['A', '\n', 'Z', 'W'] ∧
      unlinesW [['A']] = ['A', '\n'] ∧
      write_tracking_file_with_content popState0 [['A']] ≠ some (unlinesW [['A']]) :=
  ⟨rfl, rfl, by decide⟩

/-- Amended C9: the bare acquire of an existing regular manifest file
returns its content unchanged and is idempotent on the state; the "write
full listing" operation overwrites from position 0 without truncating, so
the resulting content is the serialized listing followed by whatever tail of
the old content extends past it — exactly the listing whenever the old
content is no longer than the new one. -/
theorem acquire_preserves_write_overwrites (s : DirState) (c : List Char)
    (data : List (List Char))
    (hd : s.dir_exists = true) (hi : s.is_dir = true)
    (ht : s.tracking = some (.regular c)) :
    write_tracking_file s = some c ∧
      acquireState s = some s ∧
      write_tracking_file_with_content s data = some (overwriteFrom (unlinesW data) c) ∧
      (c.length ≤ (unlinesW data).length →
        write_tracking_file_with_content s data = some (unlinesW data)) := by
  obtain ⟨d, i, t⟩ := s
  simp only at hd hi ht
  subst hd; subst hi; subst ht
  refine ⟨rfl, rfl, rfl, ?_⟩
  intro hlen
  show some (unlinesW data ++ c.drop (unlinesW data).length) = some (unlinesW data)
  rw [List.drop_eq_nil_of_le hlen, List.append_nil]

/-! ### Comparator laws -/

/-- Characters with equal code points are equal. -/
theorem charEq_of_toNat {a b : Char} (h : a.toNat = b.toNat) : a = b := by
  have ha := Char.ofNat_toNat a
  have hb := Char.ofNat_toNat b
  rw [← ha, ← hb, h]

/-- Byte-wise three-way comparison is antisymmetric under `Ordering.swap`. -/
theorem charListCmp_swap (a b : List Char) : charListCmp b a = (charListCmp a b).swap := by
  induction a generalizing b with
  | nil => cases b <;> simp [charListCmp, Ordering.swap]
  | cons x as ih =>
    cases b with
    | nil => simp [charListCmp, Ordering.swap]
    | cons y bs =>
      simp only [charListCmp]
      by_cases h1 : x.toNat < y.toNat
      · rw [if_pos h1, if_neg (by omega), if_pos h1]
        rfl
      · by_cases h2 : y.toNat < x.toNat
        · rw [if_pos h2, if_neg h1, if_pos h2]
          rfl
        · rw [if_neg h1, if_neg h2, if_neg h2, if_neg h1, ih bs]

/-- Byte-wise comparison returning `eq` means equality. -/
theorem charListCmp_eq {a b : List Char} (h : charListCmp a b = .eq) : a = b := by
  induction a generalizing b with
  | nil => cases b with
    | nil => rfl
    | cons y bs => simp [charListCmp] at h
  | cons x as ih =>
    cases b with
    | nil => simp [charListCmp] at h
    | cons y bs =>
      simp only [charListCmp] at h
      by_cases h1 : x.toNat < y.toNat
      · rw [if_pos h1] at h; cases h
      · by_cases h2 : y.toNat < x.toNat
        · rw [if_neg h1, if_pos h2] at h; cases h
        · rw [if_neg h1, if_neg h2] at h
          rw [charEq_of_toNat (by omega : x.toNat = y.toNat), ih h]

/-- Byte-wise strict comparison is transitive. -/
theorem charListCmp_lt_trans {a b c : List Char} (h1 : charListCmp a b = .lt)
    (h2 : charListCmp b c = .lt) : charListCmp a c = .lt := by
  induction a generalizing b c with
  | nil =>
    cases b with
    | nil => simp [charListCmp] at h1
    | cons y bs =>
      cases c with
      | nil => simp [charListCmp] at h2
      | cons z cs => simp [charListCmp]
  | cons x as ih =>
    cases b with
    | nil => simp [charListCmp] at h1
    | cons y bs =>
      cases c with
      | nil => simp [charListCmp] at h2
      | cons z cs =>
        simp only [charListCmp] at h1 h2 ⊢
        by_cases hxy : x.toNat < y.toNat
        · by_cases hyz : y.toNat < z.toNat
          · rw [if_pos (by omega : x.toNat < z.toNat)]
          · by_cases hzy : z.toNat < y.toNat
            · rw [if_neg hyz, if_pos hzy] at h2
              cases h2
            · rw [if_pos (by omega : x.toNat < z.toNat)]
        · by_cases hyx : y.toNat < x.toNat
          · rw [if_neg hxy, if_pos hyx] at h1; cases h1
          · rw [if_neg hxy, if_neg hyx] at h1
            by_cases hyz : y.toNat < z.toNat
            · rw [if_pos (by omega : x.toNat < z.toNat)]
            · by_cases hzy : z.toNat < y.toNat
              · rw [if_neg hyz, if_pos hzy] at h2; cases h2
              · rw [if_neg hyz, if_neg hzy] at h2
                rw [if_neg (by omega : ¬ x.toNat < z.toNat),
                  if_neg (by omega : ¬ z.toNat < x.toNat)]
                exact ih h1 h2

/-- The strict boolean order agrees with the three-way comparison. -/
theorem charListLt_iff {a b : List Char} : charListLt a b = true ↔ charListCmp a b = .lt := by
  induction a generalizing b with
  | nil => cases b <;> simp [charListLt, charListCmp]
  | cons x as ih =>
    cases b with
    | nil => simp [charListLt, charListCmp]
    | cons y bs =>
      simp only [charListLt, charListCmp]
      by_cases h1 : x.toNat < y.toNat
      · simp [h1]
      · by_cases h2 : y.toNat < x.toNat
        · simp [h1, h2]
        · simp [h1, h2, ih]

/-- The line order is `≤` of the byte-wise comparison. -/
theorem lineLe_eq (a b : List Char) : lineLe a b = ordNotGt (charListCmp a b) := by
  unfold lineLe
  cases h : charListCmp a b with
  | lt =>
    have : charListCmp b a = .gt := by rw [charListCmp_swap, h]; rfl
    have hlt : charListLt b a = false := by
      cases hq : charListLt b a
      · rfl
      · rw [charListLt_iff.mp hq] at this; cases this
    rw [hlt]; rfl
  | eq =>
    have : charListCmp b a = .eq := by rw [charListCmp_swap, h]; rfl
    have hlt : charListLt b a = false := by
      cases hq : charListLt b a
      · rfl
      · rw [charListLt_iff.mp hq] at this; cases this
    rw [hlt]; rfl
  | gt =>
    have : charListCmp b a = .lt := by rw [charListCmp_swap, h]; rfl
    rw [charListLt_iff.mpr this]; rfl

/-- `≤`-transitivity for any comparator with swap symmetry, left-eq
congruence and strict transitivity. -/
theorem ordNotGt_trans_of (cmp : α → α → Ordering)
    (hswap : ∀ x y, cmp y x = (cmp x y).swap)
    (heqc : ∀ x y, cmp x y = .eq → ∀ z, cmp y z = cmp x z)
    (htr : ∀ x y z, cmp x y = .lt → cmp y z = .lt → cmp x z = .lt)
    (a b c : α) (h1 : ordNotGt (cmp a b) = true) (h2 : ordNotGt (cmp b c) = true) :
    ordNotGt (cmp a c) = true := by
  cases hab : cmp a b with
  | gt => rw [hab] at h1; cases h1
  | eq => rw [← heqc a b hab c]; exact h2
  | lt =>
    cases hbc : cmp b c with
    | gt => rw [hbc] at h2; cases h2
    | eq =>
      have hcb : cmp c b = .eq := by rw [hswap, hbc]; rfl
      have : cmp b a = cmp c a := heqc c b hcb a
      have hca : cmp c a = .gt := by
        rw [← this, hswap, hab]; rfl
      have : cmp a c = .lt := by rw [hswap, hca]; rfl
      rw [this]; rfl
    | lt => rw [htr a b c hab hbc]; rfl

/-- `≤`-totality for any comparator with swap symmetry. -/
theorem ordNotGt_total_of (cmp : α → α → Ordering)
    (hswap : ∀ x y, cmp y x = (cmp x y).swap)
    (a b : α) : ordNotGt (cmp a b) = true ∨ ordNotGt (cmp b a) = true := by
  cases hab : cmp a b with
  | gt =>
    have : cmp b a = .lt := by rw [hswap, hab]; rfl
    right; rw [this]; rfl
  | eq => left; rfl
  | lt => left; rfl

/-- `≤`-antisymmetry for a comparator whose `eq` implies equality. -/
theorem ordNotGt_antisymm_of (cmp : α → α → Ordering)
    (hswap : ∀ x y, cmp y x = (cmp x y).swap)
    (heq : ∀ x y, cmp x y = .eq → x = y)
    (a b : α) (h1 : ordNotGt (cmp a b) = true) (h2 : ordNotGt (cmp b a) = true) :
    a = b := by
  cases hab : cmp a b with
  | gt => rw [hab] at h1; cases h1
  | eq => exact heq a b hab
  | lt =>
    have : cmp b a = .gt := by rw [hswap, hab]; rfl
    rw [this] at h2; cases h2

/-! ### Line order laws and serialization determinism -/

/-- Left-eq congruence for the byte-wise comparison. -/
theorem charListCmp_eqc (x y : List Char) (h : charListCmp x y = .eq) :
    ∀ z, charListCmp y z = charListCmp x z := by
  rw [charListCmp_eq h]
  intro z; rfl

/-- The line order is transitive. -/
theorem lineLe_trans (a b c : List Char) (h1 : lineLe a b = true)
    (h2 : lineLe b c = true) : lineLe a c = true := by
  rw [lineLe_eq] at h1 h2 ⊢
  exact ordNotGt_trans_of charListCmp charListCmp_swap charListCmp_eqc
    (fun x y z => charListCmp_lt_trans) a b c h1 h2

/-- The line order is total. -/
theorem lineLe_total (a b : List Char) : lineLe a b = true ∨ lineLe b a = true := by
  rw [lineLe_eq, lineLe_eq]
  exact ordNotGt_total_of charListCmp charListCmp_swap a b

/-- The line order is antisymmetric. -/
theorem lineLe_antisymm (a b : List Char) (h1 : lineLe a b = true)
    (h2 : lineLe b a = true) : a = b := by
  rw [lineLe_eq] at h1 h2
  exact ordNotGt_antisymm_of charListCmp charListCmp_swap
    (fun x y => charListCmp_eq) a b h1 h2

/-- `foldr max 0` only depends on the multiset of values. -/
theorem foldr_max_perm {l1 l2 : List Nat} (h : l1.Perm l2) :
    l1.foldr max 0 = l2.foldr max 0 := by
  induction h with
  | nil => rfl
  | cons a h ih => simp only [List.foldr_cons, ih]
  | swap a b l => simp only [List.foldr_cons]; omega
  | trans h1 h2 ih1 ih2 => exact ih1.trans ih2

/-- The rendered lines of two orderings of the same entries are
permutations of each other (the pad width agrees). -/
theorem manifestLines_perm {m m' : List ManifestEntryS} (h : m.Perm m') :
    (manifestLines m).Perm (manifestLines m') := by
  have hpad : manifestPad m = manifestPad m' := by
    unfold manifestPad
    exact congrArg (· + 2)
      (foldr_max_perm (((h.map serialize_entry).map (fun p => strWidth p.1))))
  unfold manifestLines
  rw [hpad]
  exact (h.map serialize_entry).map _

/-- `Manifest::serialize` is independent of the input order. -/
theorem manifest_serialize_perm {m m' : List ManifestEntryS} (h : m.Perm m') :
    manifest_serialize m = manifest_serialize m' := by
  unfold manifest_serialize
  have hperm : (sortByLe lineLe (manifestLines m)).Perm
      (sortByLe lineLe (manifestLines m')) :=
    ((sortByLe_perm _ _).trans (manifestLines_perm h)).trans
      (sortByLe_perm _ _).symm
  exact @List.eq_of_perm_of_sorted _ (fun a b => lineLe a b = true)
    ⟨fun a b h1 h2 => lineLe_antisymm a b h1 h2⟩ _ _ hperm
    (sorted_sortByLe lineLe lineLe_trans lineLe_total _)
    (sorted_sortByLe lineLe lineLe_trans lineLe_total _)

/-- Claim C4: `Manifest::serialize` returns the rendered text lines sorted
as whole strings (byte-wise), and any two orderings of the same entries
serialize to identical output line for line — serializing an unchanged tree
is deterministic regardless of enumeration order. -/
theorem serialize_sorted_and_order_independent (m m' : List ManifestEntryS)
    (h : m.Perm m') :
    List.Sorted (fun a b => lineLe a b = true) (manifest_serialize m) ∧
      manifest_serialize m = manifest_serialize m' :=
  ⟨sorted_sortByLe lineLe lineLe_trans lineLe_total _, manifest_serialize_perm h⟩

/-- Witness for C4 at a concrete two-entry manifest given in both orders. -/
theorem serialize_sorted_and_order_independent_witness :
    ([entA, entB].Perm [entB, entA]) ∧
      List.Sorted (fun a b => lineLe a b = true) (manifest_serialize [entA, entB]) ∧
      manifest_serialize [entA, entB] = manifest_serialize [entB, entA] :=
  ⟨by decide,
    (serialize_sorted_and_order_independent [entA, entB] [entB, entA] (by decide)).1,
    (serialize_sorted_and_order_independent [entA, entB] [entB, entA] (by decide)).2⟩

/-! ### Path-component order laws (C5) -/

/-- Strings with equal character data are equal. -/
theorem strEq_of_data {a b : String} (h : a.data = b.data) : a = b := by
  cases a; cases b; exact congrArg String.mk h

/-- `strLtB` agrees with the three-way comparison. -/
theorem strLtB_iff {a b : String} : strLtB a b = true ↔ charListCmp a.data b.data = .lt := by
  unfold strLtB
  exact charListLt_iff

/-- Rust string order is transitive. -/
theorem strLtB_trans {a b c : String} (h1 : strLtB a b = true) (h2 : strLtB b c = true) :
    strLtB a c = true :=
  strLtB_iff.mpr (charListCmp_lt_trans (strLtB_iff.mp h1) (strLtB_iff.mp h2))

/-- Rust string order is asymmetric. -/
theorem strLtB_asymm {a b : String} (h1 : strLtB a b = true) : strLtB b a = false := by
  cases hq : strLtB b a
  · rfl
  · have hab := strLtB_iff.mp h1
    have hba := strLtB_iff.mp hq
    rw [charListCmp_swap, hab] at hba
    cases hba

/-- Two strings that are not strictly ordered either way are equal. -/
theorem strEq_of_not_lt {a b : String} (h1 : ¬ strLtB a b = true)
    (h2 : ¬ strLtB b a = true) : a = b := by
  apply strEq_of_data
  cases hc : charListCmp a.data b.data with
  | lt => exact absurd (strLtB_iff.mpr hc) h1
  | eq => exact charListCmp_eq hc
  | gt =>
    have : charListCmp b.data a.data = .lt := by rw [charListCmp_swap, hc]; rfl
    exact absurd (strLtB_iff.mpr this) h2

/-- The component-list order used by `discover_files` is transitive. -/
theorem compLexLe_trans : ∀ a b c : List String, compLexLe a b = true →
    compLexLe b c = true → compLexLe a c = true := by
  intro a
  induction a with
  | nil => intro b c h1 h2; rfl
  | cons x as ih =>
    intro b c h1 h2
    cases b with
    | nil => simp [compLexLe] at h1
    | cons y bs =>
      cases c with
      | nil => simp [compLexLe] at h2
      | cons z cs =>
        simp only [compLexLe] at h1 h2 ⊢
        by_cases hxy : strLtB x y = true
        · by_cases hyz : strLtB y z = true
          · rw [if_pos (strLtB_trans hxy hyz)]
          · rw [if_neg hyz] at h2
            by_cases hzy : strLtB z y = true
            · rw [if_pos hzy] at h2; cases h2
            · rw [← strEq_of_not_lt hyz hzy, if_pos hxy]
        · rw [if_neg hxy] at h1
          by_cases hyx : strLtB y x = true
          · rw [if_pos hyx] at h1; cases h1
          · rw [if_neg hyx] at h1
            have hxyeq := strEq_of_not_lt hxy hyx
            subst hxyeq
            by_cases hyz : strLtB x z = true
            · rw [if_pos hyz]
            · rw [if_neg hyz] at h2 ⊢
              by_cases hzy : strLtB z x = true
              · rw [if_pos hzy] at h2; cases h2
              · rw [if_neg hzy] at h2 ⊢
                exact ih bs cs h1 h2

/-- The component-list order is total. -/
theorem compLexLe_total : ∀ a b : List String,
    compLexLe a b = true ∨ compLexLe b a = true := by
  intro a
  induction a with
  | nil => intro b; left; rfl
  | cons x as ih =>
    intro b
    cases b with
    | nil => right; rfl
    | cons y bs =>
      simp only [compLexLe]
      by_cases hxy : strLtB x y = true
      · left; rw [if_pos hxy]
      · by_cases hyx : strLtB y x = true
        · right; rw [if_pos hyx]
        · rw [if_neg hxy, if_neg hyx, if_neg hyx, if_neg hxy]
          exact ih bs

/-- Component comparison is antisymmetric under `swap`. -/
theorem pathCompCmp_swap : ∀ x y, pathCompCmp y x = (pathCompCmp x y).swap := by
  intro x y
  cases x <;> cases y <;> first | exact charListCmp_swap _ _ | rfl

/-- Component comparison returning `eq` means equal components. -/
theorem pathCompCmp_eq : ∀ x y, pathCompCmp x y = .eq → x = y := by
  intro x y h
  cases x <;> cases y <;>
    first
      | rfl
      | exact congrArg PathComp.normal (charListCmp_eq h)
      | simp [pathCompCmp, compRank] at h

/-- Component comparison is strictly transitive. -/
theorem pathCompCmp_lt_trans : ∀ x y z, pathCompCmp x y = .lt →
    pathCompCmp y z = .lt → pathCompCmp x z = .lt := by
  intro x y z h1 h2
  cases x <;> cases y <;> cases z <;>
    first
      | exact charListCmp_lt_trans h1 h2
      | rfl
      | (exfalso; revert h1 h2; simp [pathCompCmp, compRank])

/-- Lexicographic list comparison: swap symmetry. -/
theorem listCmpWith_swap (cmp : α → α → Ordering)
    (hswap : ∀ x y, cmp y x = (cmp x y).swap) :
    ∀ a b, listCmpWith cmp b a = (listCmpWith cmp a b).swap := by
  intro a
  induction a with
  | nil => intro b; cases b <;> simp [listCmpWith, Ordering.swap]
  | cons x as ih =>
    intro b
    cases b with
    | nil => simp [listCmpWith, Ordering.swap]
    | cons y bs =>
      simp only [listCmpWith]
      cases hc : cmp x y with
      | eq =>
        have hc' : cmp y x = .eq := by rw [hswap, hc]; rfl
        rw [hc']
        exact ih bs
      | lt =>
        have hc' : cmp y x = .gt := by rw [hswap, hc]; rfl
        rw [hc']
        rfl
      | gt =>
        have hc' : cmp y x = .lt := by rw [hswap, hc]; rfl
        rw [hc']
        rfl


/-- Lexicographic list comparison: `eq` means equal lists, given that the
component comparison's `eq` means equality. -/
theorem listCmpWith_eq (cmp : α → α → Ordering)
    (heq : ∀ x y, cmp x y = .eq → x = y) :
    ∀ a b, listCmpWith cmp a b = .eq → a = b := by
  intro a
  induction a with
  | nil => intro b h; cases b with
    | nil => rfl
    | cons y bs => simp [listCmpWith] at h
  | cons x as ih =>
    intro b h
    cases b with
    | nil => simp [listCmpWith] at h
    | cons y bs =>
      simp only [listCmpWith] at h
      cases hc : cmp x y with
      | eq => rw [hc] at h; rw [heq x y hc, ih bs h]
      | lt => rw [hc] at h; cases h
      | gt => rw [hc] at h; cases h

/-- Lexicographic list comparison: strict transitivity. -/
theorem listCmpWith_lt_trans (cmp : α → α → Ordering)
    (heq : ∀ x y, cmp x y = .eq → x = y)
    (htr : ∀ x y z, cmp x y = .lt → cmp y z = .lt → cmp x z = .lt) :
    ∀ a b c, listCmpWith cmp a b = .lt → listCmpWith cmp b c = .lt →
      listCmpWith cmp a c = .lt := by
  intro a
  induction a with
  | nil =>
    intro b c h1 h2
    cases b with
    | nil => simp [listCmpWith] at h1
    | cons y bs =>
      cases c with
      | nil => simp [listCmpWith] at h2
      | cons z cs => simp [listCmpWith]
  | cons x as ih =>
    intro b c h1 h2
    cases b with
    | nil => simp [listCmpWith] at h1
    | cons y bs =>
      cases c with
      | nil => simp [listCmpWith] at h2
      | cons z cs =>
        simp only [listCmpWith] at h1 h2 ⊢
        cases hxy : cmp x y with
        | gt => rw [hxy] at h1; cases h1
        | eq =>
          rw [hxy] at h1
          obtain rfl := heq x y hxy
          cases hyz : cmp x z with
          | gt => rw [hyz] at h2; cases h2
          | lt => rfl
          | eq =>
            rw [hyz] at h2
            exact ih bs cs h1 h2
        | lt =>
          cases hyz : cmp y z with
          | gt => rw [hyz] at h2; cases h2
          | eq =>
            obtain rfl := heq y z hyz
            rw [hxy]
          | lt =>
            rw [htr x y z hxy hyz]

/-- `PathBuf` comparison of path keys: swap symmetry. -/
theorem pathKeyCmp_swap (a b : List Char) : pathKeyCmp b a = (pathKeyCmp a b).swap :=
  listCmpWith_swap pathCompCmp pathCompCmp_swap _ _

/-- `PathBuf` comparison: left-eq congruence (equal component lists). -/
theorem pathKeyCmp_eqc (a b : List Char) (h : pathKeyCmp a b = .eq) :
    ∀ z, pathKeyCmp b z = pathKeyCmp a z := by
  intro z
  unfold pathKeyCmp at h ⊢
  rw [listCmpWith_eq pathCompCmp pathCompCmp_eq _ _ h]

/-- `PathBuf` comparison: strict transitivity. -/
theorem pathKeyCmp_lt_trans (a b c : List Char) (h1 : pathKeyCmp a b = .lt)
    (h2 : pathKeyCmp b c = .lt) : pathKeyCmp a c = .lt :=
  listCmpWith_lt_trans pathCompCmp pathCompCmp_eq pathCompCmp_lt_trans _ _ _ h1 h2

/-- The entry order of `Manifest::sort` is transitive. -/
theorem entryLe_trans (a b c : ManifestEntryS) (h1 : entryLe a b = true)
    (h2 : entryLe b c = true) : entryLe a c = true := by
  unfold entryLe at h1 h2 ⊢
  cases hab : pathKeyCmp a.path_key b.path_key with
  | gt => rw [hab] at h1; cases h1
  | eq => rw [← pathKeyCmp_eqc _ _ hab]; exact h2
  | lt =>
    cases hbc : pathKeyCmp b.path_key c.path_key with
    | gt => rw [hbc] at h2; cases h2
    | eq =>
      have hcb : pathKeyCmp c.path_key b.path_key = .eq := by
        rw [pathKeyCmp_swap, hbc]; rfl
      have h3 : pathKeyCmp b.path_key a.path_key = .gt := by
        rw [pathKeyCmp_swap, hab]; rfl
      have h4 : pathKeyCmp c.path_key a.path_key = .gt :=
        (pathKeyCmp_eqc _ _ hcb a.path_key).symm.trans h3
      have h5 : pathKeyCmp a.path_key c.path_key = .lt := by
        rw [pathKeyCmp_swap, h4]; rfl
      rw [h5]; rfl
    | lt => rw [pathKeyCmp_lt_trans _ _ _ hab hbc]; rfl

/-- The entry order of `Manifest::sort` is total. -/
theorem entryLe_total (a b : ManifestEntryS) :
    entryLe a b = true ∨ entryLe b a = true := by
  unfold entryLe
  cases hab : pathKeyCmp a.path_key b.path_key with
  | gt =>
    have : pathKeyCmp b.path_key a.path_key = .lt := by
      rw [pathKeyCmp_swap, hab]; rfl
    right; rw [this]; rfl
  | eq => left; rfl
  | lt => left; rfl

/-- Amended C5: after `deserialize_manifest` the manifest is sorted by
`path_key` under the comparator the source actually uses — `PathBuf`
ordering, which is component-wise (components compared byte-wise) — and the
entry list of `discover_files` is sorted under the same ordering restricted
to walk-produced relative paths. -/
theorem manifests_sorted_by_path_cmp :
    (∀ content : List Char,
        List.Sorted (fun a b => entryLe a b = true)
          ((deserialize_manifest content).getD [])) ∧
      (∀ (t : FsNode) (prefs : Option (List (List String))),
        List.Sorted (fun a b => compLexLe a b = true) (discoverPaths t prefs)) := by
  constructor
  · intro content
    unfold deserialize_manifest
    cases hm : ((rustLines content).filter (fun l => !l.isEmpty)).mapM deserialize_entry with
    | none => exact List.sorted_nil
    | some l =>
      simp only [Option.map, Option.getD]
      exact sorted_sortByLe entryLe entryLe_trans entryLe_total l
  · intro t prefs
    exact sorted_sortByLe compLexLe compLexLe_trans compLexLe_total _

set_option maxRecDepth 8000 in
/-- Counterexample to C5: deserializing a manifest whose keys are `a/c` and
`a-b` yields them in component-wise order (`a/c` before `a-b`), which is not
sorted under byte-wise (raw byte lexicographic) string comparison, since
byte-wise `a-b` < `a/c` (0x2D < 0x2F). -/
theorem deserialize_sort_not_bytewise :
    (deserialize_manifest c5content).map (fun l => l.map (fun e => e.path_key))
        = some ["a/c".data, "a-b".data] ∧
      lineLe "a/c".data "a-b".data = false ∧
      ¬ List.Sorted (fun a b => lineLe a b = true)
          (((deserialize_manifest c5content).getD []).map (fun e => e.path_key)) := by
  have hmap : ((deserialize_manifest c5content).getD []).map (fun e => e.path_key)
      = ["a/c".data, "a-b".data] := by decide
  have hfalse : lineLe "a/c".data "a-b".data = false := by decide
  refine ⟨by decide, hfalse, ?_⟩
  rw [hmap]
  intro hs
  have h12 := List.rel_of_sorted_cons hs "a-b".data (by simp)
  rw [hfalse] at h12
  cases h12

/-- Witness for the amended C9 at the concrete populated state. -/
theorem acquire_preserves_write_overwrites_witness :
    popState0.dir_exists = true ∧ popState0.is_dir = true ∧
      popState0.tracking = some (.regular ['X', 'Y', 'Z', 'W']) ∧
      write_tracking_file popState0 = some ['X', 'Y', 'Z', 'W'] ∧
      acquireState popState0 = some popState0 :=
  ⟨rfl, rfl, rfl,
    (acquire_preserves_write_overwrites popState0 ['X', 'Y', 'Z', 'W'] [] rfl rfl rfl).1,
    (acquire_preserves_write_overwrites popState0 ['X', 'Y', 'Z', 'W'] [] rfl rfl rfl).2.1⟩

/-! ### Round-trip, stage 1: strings (C2) -/

/-- Hex rendering inverts for all digit values. -/
theorem hexVal_hexDigit : ∀ d : Nat, d < 16 → hexVal (hexDigitChar d) = some d := by decide

/-- Every escape produces at least one character. -/
theorem escChar_length_pos (c : Char) : 1 ≤ (escChar c).length := by
  unfold escChar
  split_ifs <;> simp

/-- Escaping does not shorten a string. -/
theorem esc_length_ge (s : List Char) : s.length ≤ (s.flatMap escChar).length := by
  induction s with
  | nil => simp
  | cons c s ih =>
    have := escChar_length_pos c
    simp only [List.flatMap_cons, List.length_append, List.length_cons]
    omega

/-- `hex4` of `00XY` recovers the code unit. -/
theorem hex4_00 (d1 d2 : Char) (v3 v4 : Nat) (e3 : hexVal d1 = some v3)
    (e4 : hexVal d2 = some v4) : hex4 '0' '0' d1 d2 = some (16 * v3 + v4) := by
  simp only [hex4, show hexVal '0' = some (0 : Nat) from rfl, e3, e4,
    Option.some_bind, Option.map_some', Option.some.injEq]
  omega

/-- A `\u00XY` escape decodes to the control character `XY`. -/
theorem parseUEscape_00 (d1 d2 : Char) (v3 v4 : Nat) (tail : List Char)
    (e3 : hexVal d1 = some v3) (e4 : hexVal d2 = some v4)
    (h : 16 * v3 + v4 < 0xD800) :
    parseUEscape ('0' :: '0' :: d1 :: d2 :: tail)
      = some (Char.ofNat (16 * v3 + v4), tail) := by
  unfold parseUEscape
  dsimp only
  rw [hex4_00 d1 d2 v3 v4 e3 e4]
  simp only [Option.some_bind]
  rw [if_pos (Or.inl h)]

/-- One source character is consumed per fuel tick: parsing its escape from
the front of the body. -/
theorem psf_esc_step (c : Char) (f : Nat) (tail : List Char) :
    parseStrAuxF (f + 1) (escChar c ++ tail)
      = (parseStrAuxF f tail).map (fun p => (c :: p.1, p.2)) := by
  unfold escChar
  by_cases h1 : c = '"'
  · subst h1; rw [if_pos rfl]; rfl
  · rw [if_neg h1]
    by_cases h2 : c = '\\'
    · subst h2; rw [if_pos rfl]; rfl
    · rw [if_neg h2]
      by_cases h3 : c = '\x08'
      · subst h3; rw [if_pos rfl]; rfl
      · rw [if_neg h3]
        by_cases h4 : c = '\t'
        · subst h4; rw [if_pos rfl]; rfl
        · rw [if_neg h4]
          by_cases h5 : c = '\n'
          · subst h5; rw [if_pos rfl]; rfl
          · rw [if_neg h5]
            by_cases h6 : c = '\x0c'
            · subst h6; rw [if_pos rfl]; rfl
            · rw [if_neg h6]
              by_cases h7 : c = '\r'
              · subst h7; rw [if_pos rfl]; rfl
              · rw [if_neg h7]
                by_cases h8 : c.toNat < 32
                · rw [if_pos h8]
                  have e3 : hexVal (hexDigitChar (c.toNat / 16)) = some (c.toNat / 16) :=
                    hexVal_hexDigit _ (by omega)
                  have e4 : hexVal (hexDigitChar (c.toNat % 16)) = some (c.toNat % 16) :=
                    hexVal_hexDigit _ (by omega)
                  show (parseUEscape ('0' :: '0' :: hexDigitChar (c.toNat / 16)
                        :: hexDigitChar (c.toNat % 16) :: tail)).bind
                      (fun pe => (parseStrAuxF f pe.2).map fun p => (pe.1 :: p.1, p.2))
                    = (parseStrAuxF f tail).map (fun p => (c :: p.1, p.2))
                  rw [parseUEscape_00 _ _ _ _ tail e3 e4 (by omega)]
                  simp only [Option.some_bind]
                  have hc : 16 * (c.toNat / 16) + c.toNat % 16 = c.toNat := by omega
                  rw [hc, Char.ofNat_toNat]
                · rw [if_neg h8]
                  rw [List.singleton_append, parseStrAuxF.eq_def]
                  dsimp only
                  rw [if_neg h1, if_neg h2, if_neg h8]

/-- Parsing the rendered body of a string up to its closing quote, for any
sufficient fuel. -/
theorem psf_esc (s : List Char) : ∀ (rest : List Char) (fuel : Nat),
    s.length + 1 ≤ fuel →
    parseStrAuxF fuel (s.flatMap escChar ++ ('"' :: rest)) = some (s, rest) := by
  induction s with
  | nil =>
    intro rest fuel hf
    cases fuel with
    | zero => omega
    | succ f => rfl
  | cons c s ih =>
    intro rest fuel hf
    cases fuel with
    | zero => omega
    | succ f =>
      rw [List.flatMap_cons, List.append_assoc, psf_esc_step c f _,
        ih rest f (by simpa using Nat.lt_succ_iff.mp hf)]
      rfl

/-- Parsing the rendered body of a string up to its closing quote. -/
theorem parseStrAux_esc (s rest : List Char) :
    parseStrAux (s.flatMap escChar ++ ('"' :: rest)) = some (s, rest) := by
  unfold parseStrAux
  refine psf_esc s rest _ ?_
  have := esc_length_ge s
  simp only [List.length_append, List.length_cons]
  omega

/-- `skipWs` does nothing on a non-whitespace head. -/
theorem skipWs_not_ws (c : Char) (r : List Char) (h : isWsChar c = false) :
    skipWs (c :: r) = c :: r := by
  simp [skipWs, h]

/-- `skipWs` jumps over rendered padding. -/
theorem skipWs_spaces (n : Nat) (r : List Char) :
    skipWs (spaces n ++ r) = skipWs r := by
  induction n with
  | zero => simp [spaces]
  | succ n ih =>
    simp only [spaces, List.replicate_succ, List.cons_append]
    rw [skipWs]
    simp only [isWsChar, if_pos]
    rw [if_pos (by decide)]
    exact ih

/-- Parsing a rendered string value. -/
theorem parseWsString_render (s rest : List Char) :
    parseWsString (renderString s ++ rest) = some (s, rest) := by
  unfold renderString parseWsString
  rw [List.cons_append, skipWs_not_ws _ _ (by decide)]
  rw [List.append_assoc, List.singleton_append]
  exact parseStrAux_esc s rest

/-! ### Round-trip, stage 2: numbers (C2) -/

/-- Digit characters are digits. -/
theorem digitChar_isDigit : ∀ d : Nat, d < 10 → isDigitC (digitChar d) = true := by decide

/-- Code point of a digit character. -/
theorem digitChar_toNat : ∀ d : Nat, d < 10 → (digitChar d).toNat = 48 + d := by decide

/-- Only the zero digit renders as `0`. -/
theorem digitChar_zero : ∀ d : Nat, d < 10 → (digitChar d = '0' ↔ d = 0) := by decide

/-- A digit is not JSON whitespace. -/
theorem digit_not_ws {c : Char} (h : isDigitC c = true) : isWsChar c = false := by
  unfold isDigitC at h
  simp only [Bool.and_eq_true, decide_eq_true_eq] at h
  unfold isWsChar
  have h32 : (' ' : Char).toNat = 32 := by decide
  have h9 : ('\t' : Char).toNat = 9 := by decide
  have h10 : ('\n' : Char).toNat = 10 := by decide
  have h13 : ('\r' : Char).toNat = 13 := by decide
  have : c ≠ ' ' := fun he => by rw [he] at h; omega
  have : c ≠ '\t' := fun he => by rw [he] at h; omega
  have : c ≠ '\n' := fun he => by rw [he] at h; omega
  have : c ≠ '\r' := fun he => by rw [he] at h; omega
  simp_all

/-- Every natural is below `10 ^ (n + 1)`. -/
theorem lt_pow10 (n : Nat) : n < 10 ^ (n + 1) :=
  lt_of_lt_of_le (Nat.lt_pow_self (by omega) n)
    (Nat.pow_le_pow_right (by omega) (by omega))

/-- The fuelled digit rendering is non-empty (for positive fuel covering
the number). -/
theorem natDigitsF_ne_nil : ∀ fuel n, n < 10 ^ (fuel + 1) →
    natDigitsF (fuel + 1) n ≠ [] := by
  intro fuel n h
  unfold natDigitsF
  by_cases h10 : n < 10
  · rw [if_pos h10]; simp
  · rw [if_neg h10]; simp

/-- The fuelled digit rendering consists of digits. -/
theorem natDigitsF_digits : ∀ fuel n, n < 10 ^ (fuel + 1) →
    ∀ c ∈ natDigitsF (fuel + 1) n, isDigitC c = true := by
  intro fuel
  induction fuel with
  | zero =>
    intro n h c hc
    unfold natDigitsF at hc
    rw [if_pos (by omega : n < 10)] at hc
    simp only [List.mem_singleton] at hc
    exact hc ▸ digitChar_isDigit n (by omega)
  | succ f ih =>
    intro n h c hc
    unfold natDigitsF at hc
    by_cases h10 : n < 10
    · rw [if_pos h10] at hc
      simp only [List.mem_singleton] at hc
      exact hc ▸ digitChar_isDigit n h10
    · rw [if_neg h10] at hc
      rcases List.mem_append.mp hc with hc | hc
      · have hp : 10 ^ (f + 1 + 1) = 10 * 10 ^ (f + 1) := by rw [pow_succ]; ring
        exact ih (n / 10) (by omega) c hc
      · simp only [List.mem_singleton] at hc
        exact hc ▸ digitChar_isDigit (n % 10) (by omega)

/-- Appending a digit multiplies the value by ten. -/
theorem digitsVal_append_digit (ds : List Char) (c : Char) :
    digitsVal (ds ++ [c]) = 10 * digitsVal ds + (c.toNat - 48) := by
  unfold digitsVal
  rw [List.foldl_append]
  rfl

/-- The fuelled digit rendering evaluates back to its number. -/
theorem natDigitsF_val : ∀ fuel n, n < 10 ^ (fuel + 1) →
    digitsVal (natDigitsF (fuel + 1) n) = n := by
  intro fuel
  induction fuel with
  | zero =>
    intro n h
    unfold natDigitsF
    rw [if_pos (by omega : n < 10)]
    show 10 * 0 + ((digitChar n).toNat - 48) = n
    rw [digitChar_toNat n (by omega)]
    omega
  | succ f ih =>
    intro n h
    unfold natDigitsF
    by_cases h10 : n < 10
    · rw [if_pos h10]
      show 10 * 0 + ((digitChar n).toNat - 48) = n
      rw [digitChar_toNat n h10]
      omega
    · rw [if_neg h10]
      rw [digitsVal_append_digit]
      have hp : 10 ^ (f + 1 + 1) = 10 * 10 ^ (f + 1) := by rw [pow_succ]; ring
      rw [ih (n / 10) (by omega), digitChar_toNat (n % 10) (by omega)]
      omega

/-- A nonzero number never renders with a leading zero digit. -/
theorem natDigitsF_head : ∀ fuel n, n < 10 ^ (fuel + 1) → 1 ≤ n →
    (natDigitsF (fuel + 1) n).head? ≠ some '0' := by
  intro fuel
  induction fuel with
  | zero =>
    intro n h h1
    unfold natDigitsF
    rw [if_pos (by omega : n < 10)]
    simp only [List.head?_cons, ne_eq, Option.some.injEq]
    intro h0
    rw [(digitChar_zero n (by omega)).mp h0] at h1
    omega
  | succ f ih =>
    intro n h h1
    unfold natDigitsF
    by_cases h10 : n < 10
    · rw [if_pos h10]
      simp only [List.head?_cons, ne_eq, Option.some.injEq]
      intro h0
      rw [(digitChar_zero n h10).mp h0] at h1
      omega
    · rw [if_neg h10]
      have hp : 10 ^ (f + 1 + 1) = 10 * 10 ^ (f + 1) := by rw [pow_succ]; ring
      rw [List.head?_append_of_ne_nil _ (natDigitsF_ne_nil f (n / 10) (by omega))]
      exact ih (n / 10) (by omega) (by omega)

/-- Maximal digit munching stops exactly at the rendered boundary. -/
theorem takeDigits_append (ds r : List Char) (hds : ∀ c ∈ ds, isDigitC c = true)
    (hr : ∀ c rs, r = c :: rs → isDigitC c = false) :
    takeDigits (ds ++ r) = (ds, r) := by
  induction ds with
  | nil =>
    cases hrc : r with
    | nil => simp [takeDigits]
    | cons c rs =>
      simp only [List.nil_append]
      unfold takeDigits
      rw [if_neg (by rw [hr c rs hrc]; exact Bool.false_ne_true)]
  | cons d ds ih =>
    simp only [List.cons_append]
    unfold takeDigits
    rw [if_pos (hds d (by simp))]
    rw [ih (fun c hc => hds c (by simp [hc]))]

/-- Parsing the rendered digits of `n`, bounded by a non-digit non-float
continuation. -/
theorem parseJsonUInt_render (n : Nat) (r : List Char)
    (hr : ∀ c rs, r = c :: rs →
      (isDigitC c = false ∧ c ≠ '.' ∧ c ≠ 'e' ∧ c ≠ 'E')) :
    parseJsonUInt (natDigits n ++ r) = some (n, r) := by
  have hlt := lt_pow10 n
  have hne := natDigitsF_ne_nil n n hlt
  have hdig := natDigitsF_digits n n hlt
  have hval := natDigitsF_val n n hlt
  have hhead := natDigitsF_head n n hlt
  unfold natDigits at *
  cases hnd : natDigitsF (n + 1) n with
  | nil => exact absurd hnd hne
  | cons d ds =>
    rw [hnd] at hdig hval hhead
    unfold parseJsonUInt
    have htd : takeDigits (d :: ds ++ r) = (d :: ds, r) := by
      have := takeDigits_append (d :: ds) r hdig (fun c rs hc => (hr c rs hc).1)
      simpa using this
    rw [htd]
    dsimp only
    have hzero : ¬ (d = '0' ∧ ds ≠ []) := by
      rintro ⟨h0, hds⟩
      by_cases hn0 : n = 0
      · subst hn0
        have : natDigitsF 1 0 = ['0'] := by decide
        simp only [this] at hnd
        cases hnd
        exact hds rfl
      · exact hhead (by omega) (by rw [List.head?_cons, h0])
    rw [if_neg hzero]
    have hfl : ¬ (r.head? = some '.' ∨ r.head? = some 'e' ∨ r.head? = some 'E') := by
      rintro (hc | hc | hc) <;>
        (cases hrc : r with
          | nil => rw [hrc] at hc; cases hc
          | cons c rs =>
            rw [hrc, List.head?_cons, Option.some.injEq] at hc
            subst hc
            first
              | exact (hr _ _ hrc).2.1 rfl
              | exact (hr _ _ hrc).2.2.1 rfl
              | exact (hr _ _ hrc).2.2.2 rfl)
    rw [if_neg hfl, hval]

/-! ### Round-trip, stage 3: field values (C2) -/

/-- The decimal rendering is non-empty. -/
theorem natDigits_ne_nil (n : Nat) : natDigits n ≠ [] :=
  natDigitsF_ne_nil n n (lt_pow10 n)

/-- The decimal rendering consists of digits. -/
theorem natDigits_digits (n : Nat) : ∀ c ∈ natDigits n, isDigitC c = true :=
  natDigitsF_digits n n (lt_pow10 n)

/-- The decimal rendering starts with a digit. -/
theorem natDigits_cons (n : Nat) :
    ∃ d ds, natDigits n = d :: ds ∧ isDigitC d = true := by
  cases h : natDigits n with
  | nil => exact absurd h (natDigits_ne_nil n)
  | cons d ds =>
    refine ⟨d, ds, rfl, natDigits_digits n d ?_⟩
    rw [h]
    exact List.mem_cons_self d ds

/-- Leading whitespace skip is the identity on a rendered number. -/
theorem skipWs_natDigits (n : Nat) (r : List Char) :
    skipWs (natDigits n ++ r) = natDigits n ++ r := by
  obtain ⟨d, ds, hd, hdig⟩ := natDigits_cons n
  rw [hd, List.cons_append]
  exact skipWs_not_ws d (ds ++ r) (digit_not_ws hdig)

/-- A rendered number does not start with a given non-digit character. -/
theorem natDigits_head_ne (c : Char) (hc : isDigitC c = false) (n : Nat)
    (r : List Char) : (natDigits n ++ r).head? ≠ some c := by
  obtain ⟨d, ds, hd, hdig⟩ := natDigits_cons n
  rw [hd, List.cons_append, List.head?_cons]
  intro h
  rw [Option.some.injEq] at h
  rw [h, hc] at hdig
  exact Bool.false_ne_true hdig

/-- A list with a head other than `n` is not the `null` keyword. -/
theorem take4_ne_of_head (d : Char) (X : List Char) (hd : d ≠ 'n') :
    ¬ ((d :: X).take 4 = "null".data) := by
  intro h
  rw [show "null".data = 'n' :: ['u', 'l', 'l'] from rfl] at h
  rw [show (d :: X).take 4 = d :: X.take 3 from rfl] at h
  injection h with h1 _
  exact hd h1

/-- A rendered number is not the `null` keyword. -/
theorem natDigits_take4 (n : Nat) (r : List Char) :
    ¬ ((natDigits n ++ r).take 4 = "null".data) := by
  obtain ⟨d, ds, hd, hdig⟩ := natDigits_cons n
  rw [hd, List.cons_append]
  refine take4_ne_of_head d (ds ++ r) ?_
  intro h
  rw [h] at hdig
  exact absurd hdig (by decide)

/-- Parsing the rendered `u64` value. -/
theorem parseU64_render (n : Nat) (hn : n < 2 ^ 64) (r : List Char)
    (hr : ∀ c rs, r = c :: rs →
      (isDigitC c = false ∧ c ≠ '.' ∧ c ≠ 'e' ∧ c ≠ 'E')) :
    parseU64 (natDigits n ++ r) = some (n, r) := by
  unfold parseU64
  rw [parseJsonUInt_render n r hr]
  simp only [Option.some_bind]
  rw [if_pos hn]

/-- Parsing the rendered `u32` value. -/
theorem parseU32_render (n : Nat) (hn : n < 2 ^ 32) (r : List Char)
    (hr : ∀ c rs, r = c :: rs →
      (isDigitC c = false ∧ c ≠ '.' ∧ c ≠ 'e' ∧ c ≠ 'E')) :
    parseU32 (natDigits n ++ r) = some (n, r) := by
  unfold parseU32
  rw [parseJsonUInt_render n r hr]
  simp only [Option.some_bind]
  rw [if_pos hn]

/-- Parsing the rendered signed integer. -/
theorem parseJsonIntRaw_render (i : Int) (r : List Char)
    (hr : ∀ c rs, r = c :: rs →
      (isDigitC c = false ∧ c ≠ '.' ∧ c ≠ 'e' ∧ c ≠ 'E')) :
    parseJsonIntRaw (renderInt i ++ r) = some (i, r) := by
  unfold renderInt parseJsonIntRaw
  by_cases hi : i < 0
  · rw [if_pos hi, List.cons_append]
    simp only [List.head?_cons, List.tail_cons]
    rw [if_pos trivial]
    rw [parseJsonUInt_render _ r hr]
    simp only [Option.map_some', Option.some.injEq, Prod.mk.injEq]
    refine ⟨?_, by trivial⟩
    rw [Int.toNat_of_nonneg (by omega)]
    omega
  · rw [if_neg hi]
    rw [if_neg (natDigits_head_ne '-' (by decide) _ r)]
    rw [parseJsonUInt_render _ r hr]
    simp only [Option.map_some', Option.some.injEq, Prod.mk.injEq]
    refine ⟨?_, by trivial⟩
    rw [Int.toNat_of_nonneg (by omega)]

/-- Whitespace skip is the identity on a rendered integer. -/
theorem skipWs_renderInt (i : Int) (r : List Char) :
    skipWs (renderInt i ++ r) = renderInt i ++ r := by
  unfold renderInt
  by_cases hi : i < 0
  · rw [if_pos hi, List.cons_append]
    exact skipWs_not_ws '-' _ (by decide)
  · rw [if_neg hi]
    exact skipWs_natDigits _ r

/-- Parsing the rendered `i128` value. -/
theorem parseI128Ws_render (i : Int) (hlo : -(2 ^ 127) ≤ i) (hhi : i < 2 ^ 127)
    (r : List Char)
    (hr : ∀ c rs, r = c :: rs →
      (isDigitC c = false ∧ c ≠ '.' ∧ c ≠ 'e' ∧ c ≠ 'E')) :
    parseI128Ws (renderInt i ++ r) = some (i, r) := by
  unfold parseI128Ws
  rw [skipWs_renderInt, parseJsonIntRaw_render i r hr]
  simp only [Option.some_bind]
  rw [if_pos ⟨hlo, hhi⟩]

/-- A rendered string followed by anything, in head-exposed form. -/
theorem renderString_expand (v X : List Char) :
    renderString v ++ X = '"' :: (v.flatMap escChar ++ ('"' :: X)) := by
  unfold renderString
  simp [List.cons_append, List.append_assoc, List.singleton_append]

/-- Whitespace skip is the identity on a rendered string. -/
theorem skipWs_renderString (v X : List Char) :
    skipWs (renderString v ++ X) = renderString v ++ X := by
  rw [renderString_expand]
  exact skipWs_not_ws '"' _ (by decide)

/-- A rendered string starts with a quote. -/
theorem renderString_head (v X : List Char) :
    (renderString v ++ X).head? = some '"' := by
  rw [renderString_expand, List.head?_cons]

/-- A rendered string is not the `null` keyword. -/
theorem renderString_take4 (v X : List Char) :
    ¬ ((renderString v ++ X).take 4 = "null".data) := by
  rw [renderString_expand]
  exact take4_ne_of_head '"' _ (by decide)

/-- Parsing a rendered `Option` string value that is present. -/
theorem parseOptString_render (v rest : List Char) :
    parseOptString (renderString v ++ rest) = some (some v, rest) := by
  unfold parseOptString
  rw [skipWs_renderString]
  rw [if_neg (renderString_take4 v rest)]
  rw [if_pos (renderString_head v rest)]
  rw [renderString_expand, List.tail_cons]
  rw [parseStrAux_esc v rest, Option.map_some']

/-- Parsing a rendered `Option<u64>` value that is present. -/
theorem parseOptU64_render (n : Nat) (hn : n < 2 ^ 64) (r : List Char)
    (hr : ∀ c rs, r = c :: rs →
      (isDigitC c = false ∧ c ≠ '.' ∧ c ≠ 'e' ∧ c ≠ 'E')) :
    parseOptU64 (natDigits n ++ r) = some (some n, r) := by
  unfold parseOptU64
  rw [skipWs_natDigits]
  rw [if_neg (natDigits_take4 n r)]
  rw [parseU64_render n hn r hr, Option.map_some']

/-- Parsing a rendered `Option<u32>` value that is present. -/
theorem parseOptU32_render (n : Nat) (hn : n < 2 ^ 32) (r : List Char)
    (hr : ∀ c rs, r = c :: rs →
      (isDigitC c = false ∧ c ≠ '.' ∧ c ≠ 'e' ∧ c ≠ 'E')) :
    parseOptU32 (natDigits n ++ r) = some (some n, r) := by
  unfold parseOptU32
  rw [skipWs_natDigits]
  rw [if_neg (natDigits_take4 n r)]
  rw [parseU32_render n hn r hr, Option.map_some']

/-- Parsing the rendered `ty` variant name. -/
theorem parseTyValue_render (ty : NodeType) (rest : List Char) :
    parseTyValue (renderString (tyName ty) ++ rest) = some (ty, rest) := by
  unfold parseTyValue
  rw [parseWsString_render]
  simp only [Option.some_bind]
  cases ty <;> rfl

/-- A continuation starting with a fixed separator satisfies the number
parsers' boundary condition when the separator itself does. -/
theorem head_safe_of_sep (c : Char)
    (hc : isDigitC c = false ∧ c ≠ '.' ∧ c ≠ 'e' ∧ c ≠ 'E') (X : List Char) :
    ∀ d rs, c :: X = d :: rs →
      (isDigitC d = false ∧ d ≠ '.' ∧ d ≠ 'e' ∧ d ≠ 'E') := by
  intro d rs h
  injection h with h1 _
  rw [← h1]
  exact hc


/-! ### Round-trip, stage 4: record members (C2) -/

/-- Parsing the `encoded_path_b64` member. -/
theorem pfm_epb (fuel : Nat) (acc : FMAcc) (h : acc.epb = none)
    (v tail : List Char) :
    parseFMMember fuel acc
        (renderString "encoded_path_b64".data ++ (':' :: (renderString v ++ tail)))
      = some ({ acc with epb := some v }, tail) := by
  unfold parseFMMember
  rw [parseWsString_render]
  simp only [Option.some_bind]
  rw [skipWs_not_ws ':' _ (by decide)]
  simp only [List.head?_cons, List.tail_cons]
  rw [if_pos trivial]
  rw [if_pos trivial]
  rw [if_neg (show ¬(acc.epb.isSome = true) by rw [h]; simp)]
  rw [parseWsString_render v tail, Option.map_some']

/-- Parsing the `ty` member. -/
theorem pfm_ty (fuel : Nat) (acc : FMAcc) (h : acc.ty = none)
    (ty : NodeType) (tail : List Char) :
    parseFMMember fuel acc
        (renderString "ty".data ++ (':' :: (renderString (tyName ty) ++ tail)))
      = some ({ acc with ty := some ty }, tail) := by
  unfold parseFMMember
  rw [parseWsString_render]
  simp only [Option.some_bind]
  rw [skipWs_not_ws ':' _ (by decide)]
  simp only [List.head?_cons, List.tail_cons]
  rw [if_pos trivial]
  rw [if_neg (by decide)]
  rw [if_pos trivial]
  rw [if_neg (show ¬(acc.ty.isSome = true) by rw [h]; simp)]
  rw [parseTyValue_render ty tail, Option.map_some']

/-- Parsing the `size` member. -/
theorem pfm_size (fuel : Nat) (acc : FMAcc) (h : acc.size = none)
    (n : Nat) (hn : n < 2 ^ 64) (tail : List Char)
    (hsafe : ∀ d rs, tail = d :: rs →
      (isDigitC d = false ∧ d ≠ '.' ∧ d ≠ 'e' ∧ d ≠ 'E')) :
    parseFMMember fuel acc
        (renderString "size".data ++ (':' :: (natDigits n ++ tail)))
      = some ({ acc with size := some (some n) }, tail) := by
  unfold parseFMMember
  rw [parseWsString_render]
  simp only [Option.some_bind]
  rw [skipWs_not_ws ':' _ (by decide)]
  simp only [List.head?_cons, List.tail_cons]
  rw [if_pos trivial]
  rw [if_neg (by decide), if_neg (by decide)]
  rw [if_pos trivial]
  rw [if_neg (show ¬(acc.size.isSome = true) by rw [h]; simp)]
  rw [parseOptU64_render n hn tail hsafe, Option.map_some']

/-- Parsing the `mtime_ns` member. -/
theorem pfm_mt (fuel : Nat) (acc : FMAcc) (h : acc.mt = none)
    (i : Int) (hlo : -(2 ^ 127) ≤ i) (hhi : i < 2 ^ 127) (tail : List Char)
    (hsafe : ∀ d rs, tail = d :: rs →
      (isDigitC d = false ∧ d ≠ '.' ∧ d ≠ 'e' ∧ d ≠ 'E')) :
    parseFMMember fuel acc
        (renderString "mtime_ns".data ++ (':' :: (renderInt i ++ tail)))
      = some ({ acc with mt := some i }, tail) := by
  unfold parseFMMember
  rw [parseWsString_render]
  simp only [Option.some_bind]
  rw [skipWs_not_ws ':' _ (by decide)]
  simp only [List.head?_cons, List.tail_cons]
  rw [if_pos trivial]
  rw [if_neg (by decide), if_neg (by decide), if_neg (by decide)]
  rw [if_pos trivial]
  rw [if_neg (show ¬(acc.mt.isSome = true) by rw [h]; simp)]
  rw [parseI128Ws_render i hlo hhi tail hsafe, Option.map_some']

/-- Parsing the `mode` member. -/
theorem pfm_mode (fuel : Nat) (acc : FMAcc) (h : acc.mode = none)
    (n : Nat) (hn : n < 2 ^ 32) (tail : List Char)
    (hsafe : ∀ d rs, tail = d :: rs →
      (isDigitC d = false ∧ d ≠ '.' ∧ d ≠ 'e' ∧ d ≠ 'E')) :
    parseFMMember fuel acc
        (renderString "mode".data ++ (':' :: (natDigits n ++ tail)))
      = some ({ acc with mode := some (some n) }, tail) := by
  unfold parseFMMember
  rw [parseWsString_render]
  simp only [Option.some_bind]
  rw [skipWs_not_ws ':' _ (by decide)]
  simp only [List.head?_cons, List.tail_cons]
  rw [if_pos trivial]
  rw [if_neg (by decide), if_neg (by decide), if_neg (by decide), if_neg (by decide)]
  rw [if_pos trivial]
  rw [if_neg (show ¬(acc.mode.isSome = true) by rw [h]; simp)]
  rw [parseOptU32_render n hn tail hsafe, Option.map_some']

/-- Parsing the `link_target` member. -/
theorem pfm_lt (fuel : Nat) (acc : FMAcc) (h : acc.lt = none)
    (v tail : List Char) :
    parseFMMember fuel acc
        (renderString "link_target".data ++ (':' :: (renderString v ++ tail)))
      = some ({ acc with lt := some (some v) }, tail) := by
  unfold parseFMMember
  rw [parseWsString_render]
  simp only [Option.some_bind]
  rw [skipWs_not_ws ':' _ (by decide)]
  simp only [List.head?_cons, List.tail_cons]
  rw [if_pos trivial]
  rw [if_neg (by decide), if_neg (by decide), if_neg (by decide), if_neg (by decide),
    if_neg (by decide)]
  rw [if_pos trivial]
  rw [if_neg (show ¬(acc.lt.isSome = true) by rw [h]; simp)]
  rw [parseOptString_render v tail, Option.map_some']

/-- One `, member` step of the record-object member loop. -/
theorem pfl_comma (fuel : Nat) (hf : 1 ≤ fuel) (acc : FMAcc) (s : List Char) :
    parseFMLoop fuel acc (',' :: s)
      = (parseFMMember (fuel - 1) acc s).bind fun p =>
          parseFMLoop (fuel - 1) p.1 p.2 := by
  obtain ⟨f, rfl⟩ : ∃ f, fuel = f + 1 := ⟨fuel - 1, by omega⟩
  rw [parseFMLoop]
  rw [skipWs_not_ws ',' s (by decide)]
  simp only [List.head?_cons, List.tail_cons, Nat.add_sub_cancel]
  rw [if_pos trivial]

/-- The closing brace step of the record-object member loop. -/
theorem pfl_close (fuel : Nat) (hf : 1 ≤ fuel) (acc : FMAcc) (r : List Char) :
    parseFMLoop fuel acc ('}' :: r) = some (acc, r) := by
  obtain ⟨f, rfl⟩ : ∃ f, fuel = f + 1 := ⟨fuel - 1, by omega⟩
  rw [parseFMLoop]
  rw [skipWs_not_ws '}' r (by decide)]
  simp only [List.head?_cons, List.tail_cons]
  rw [if_neg (by decide), if_pos trivial]

/-! ### Round-trip, stage 5: the record object (C2) -/

/-- Skipping whitespace never lengthens the input. -/
theorem skipWs_len (s : List Char) : (skipWs s).length ≤ s.length := by
  induction s with
  | nil => exact le_refl _
  | cons c cs ih =>
    rw [skipWs]
    by_cases h : isWsChar c
    · rw [if_pos h, List.length_cons]
      omega
    · rw [if_neg h]

/-- A rendered record is at least two characters long. -/
theorem renderFileMeta_len (m : FileMetaS) : 2 ≤ (renderFileMeta m).length := by
  unfold renderFileMeta
  simp only [List.append_assoc, List.length_append, List.length_cons,
    List.length_singleton]
  omega

/-- `FileMeta::deserialize` on any input whose whitespace-skipped form is a
rendered record followed by `rest` returns the record and `rest`: members are
parsed in declaration order, absent `Option` fields default to `None`, and the
`u64`/`u32`/`i128` range checks pass for a well-formed record. -/
theorem parseFileMeta_render (m : FileMetaS) (hwf : m.wf) (s rest : List Char)
    (hs : skipWs s = renderFileMeta m ++ rest) :
    parseFileMeta s = some (m, rest) := by
  have hlen : 2 ≤ s.length := by
    have h1 := skipWs_len s
    have h2 := renderFileMeta_len m
    rw [hs, List.length_append] at h1
    omega
  obtain ⟨hsz, hmd, hlo, hhi⟩ := hwf
  unfold parseFileMeta
  rw [hs]
  rcases m with ⟨epb, ty, size, mt, mode, lt⟩
  rcases size with _ | sz <;> rcases mode with _ | md <;> rcases lt with _ | ltv <;>
    simp only [renderFileMeta] <;>
    simp only [List.append_assoc, List.cons_append, List.singleton_append,
      List.nil_append] <;>
    simp only [List.head?_cons, List.tail_cons] <;>
    rw [if_pos trivial] <;>
    rw [skipWs_renderString] <;>
    rw [renderString_head] <;>
    rw [if_neg (by decide)] <;>
    rw [pfm_epb _ emptyFMAcc rfl epb _] <;>
    simp only [Option.some_bind] <;>
    rw [pfl_comma _ (by omega)] <;>
    rw [pfm_ty _ _ (by rfl) ty _] <;>
    simp only [Option.some_bind] <;>
    rw [pfl_comma _ (by omega)]
  · rw [pfm_mt _ _ (by rfl) mt hlo hhi _ (head_safe_of_sep '}' (by decide) _)]
    simp only [Option.some_bind]
    rw [pfl_close _ (by omega)]
    simp only [Option.some_bind]
    rfl
  · rw [pfm_mt _ _ (by rfl) mt hlo hhi _ (head_safe_of_sep ',' (by decide) _)]
    simp only [Option.some_bind]
    rw [pfl_comma _ (by omega)]
    rw [pfm_lt _ _ (by rfl) ltv _]
    simp only [Option.some_bind]
    rw [pfl_close _ (by omega)]
    simp only [Option.some_bind]
    rfl
  · rw [pfm_mt _ _ (by rfl) mt hlo hhi _ (head_safe_of_sep ',' (by decide) _)]
    simp only [Option.some_bind]
    rw [pfl_comma _ (by omega)]
    rw [pfm_mode _ _ (by rfl) md (hmd md rfl) _ (head_safe_of_sep '}' (by decide) _)]
    simp only [Option.some_bind]
    rw [pfl_close _ (by omega)]
    simp only [Option.some_bind]
    rfl
  · rw [pfm_mt _ _ (by rfl) mt hlo hhi _ (head_safe_of_sep ',' (by decide) _)]
    simp only [Option.some_bind]
    rw [pfl_comma _ (by omega)]
    rw [pfm_mode _ _ (by rfl) md (hmd md rfl) _ (head_safe_of_sep ',' (by decide) _)]
    simp only [Option.some_bind]
    rw [pfl_comma _ (by omega)]
    rw [pfm_lt _ _ (by rfl) ltv _]
    simp only [Option.some_bind]
    rw [pfl_close _ (by omega)]
    simp only [Option.some_bind]
    rfl
  · rw [pfm_size _ _ (by rfl) sz (hsz sz rfl) _ (head_safe_of_sep ',' (by decide) _)]
    simp only [Option.some_bind]
    rw [pfl_comma _ (by omega)]
    rw [pfm_mt _ _ (by rfl) mt hlo hhi _ (head_safe_of_sep '}' (by decide) _)]
    simp only [Option.some_bind]
    rw [pfl_close _ (by omega)]
    simp only [Option.some_bind]
    rfl
  · rw [pfm_size _ _ (by rfl) sz (hsz sz rfl) _ (head_safe_of_sep ',' (by decide) _)]
    simp only [Option.some_bind]
    rw [pfl_comma _ (by omega)]
    rw [pfm_mt _ _ (by rfl) mt hlo hhi _ (head_safe_of_sep ',' (by decide) _)]
    simp only [Option.some_bind]
    rw [pfl_comma _ (by omega)]
    rw [pfm_lt _ _ (by rfl) ltv _]
    simp only [Option.some_bind]
    rw [pfl_close _ (by omega)]
    simp only [Option.some_bind]
    rfl
  · rw [pfm_size _ _ (by rfl) sz (hsz sz rfl) _ (head_safe_of_sep ',' (by decide) _)]
    simp only [Option.some_bind]
    rw [pfl_comma _ (by omega)]
    rw [pfm_mt _ _ (by rfl) mt hlo hhi _ (head_safe_of_sep ',' (by decide) _)]
    simp only [Option.some_bind]
    rw [pfl_comma _ (by omega)]
    rw [pfm_mode _ _ (by rfl) md (hmd md rfl) _ (head_safe_of_sep '}' (by decide) _)]
    simp only [Option.some_bind]
    rw [pfl_close _ (by omega)]
    simp only [Option.some_bind]
    rfl
  · rw [pfm_size _ _ (by rfl) sz (hsz sz rfl) _ (head_safe_of_sep ',' (by decide) _)]
    simp only [Option.some_bind]
    rw [pfl_comma _ (by omega)]
    rw [pfm_mt _ _ (by rfl) mt hlo hhi _ (head_safe_of_sep ',' (by decide) _)]
    simp only [Option.some_bind]
    rw [pfl_comma _ (by omega)]
    rw [pfm_mode _ _ (by rfl) md (hmd md rfl) _ (head_safe_of_sep ',' (by decide) _)]
    simp only [Option.some_bind]
    rw [pfl_comma _ (by omega)]
    rw [pfm_lt _ _ (by rfl) ltv _]
    simp only [Option.some_bind]
    rw [pfl_close _ (by omega)]
    simp only [Option.some_bind]
    rfl

/-! ### Round-trip, stage 6: lines (C2) -/

/-- Whitespace skip is the identity on a rendered record. -/
theorem skipWs_renderFileMeta (m : FileMetaS) (X : List Char) :
    skipWs (renderFileMeta m ++ X) = renderFileMeta m ++ X := by
  unfold renderFileMeta
  simp only [List.append_assoc, List.cons_append, List.singleton_append]
  exact skipWs_not_ws '{' _ (by decide)

/-- One rendered manifest line deserializes back to its entry. -/
theorem deserialize_entry_render (e : ManifestEntryS) (hwf : e.record.wf)
    (padn : Nat) :
    deserialize_entry
        (renderString e.path_key ++ (spaces padn ++ renderFileMeta e.record))
      = some e := by
  unfold deserialize_entry
  rw [parseWsString_render]
  simp only [Option.some_bind]
  rw [parseFileMeta_render e.record hwf _ [] (by
    rw [skipWs_spaces, List.append_nil]
    have := skipWs_renderFileMeta e.record []
    rw [List.append_nil] at this
    exact this)]
  simp only [Option.some_bind]
  rfl

/-- Deserializing the rendered (pre-sort) lines of a manifest. -/
theorem mapM_lines (P : Nat) : ∀ (l : List ManifestEntryS),
    (∀ e ∈ l, e.record.wf) →
    ((l.map serialize_entry).map
        (fun p => p.1 ++ spaces (P - strWidth p.1) ++ p.2)).mapM deserialize_entry
      = some l := by
  intro l
  induction l with
  | nil => intro _; rfl
  | cons e t ih =>
    intro hwf
    simp only [List.map_cons, List.mapM_cons]
    have hline : deserialize_entry
        ((serialize_entry e).1 ++ spaces (P - strWidth (serialize_entry e).1)
          ++ (serialize_entry e).2) = some e := by
      show deserialize_entry
        (renderString e.path_key
          ++ spaces (P - strWidth (renderString e.path_key))
          ++ renderFileMeta e.record) = some e
      rw [List.append_assoc]
      exact deserialize_entry_render e (hwf e (List.mem_cons_self e t)) _
    rw [hline]
    rw [ih (fun x hx => hwf x (List.mem_cons_of_mem e hx))]
    rfl

/-- A fallible map over a permuted list still succeeds, with a permuted
result. -/
theorem mapM_some_perm {α β : Type} (g : α → Option β) {l1 l2 : List α}
    (h : l1.Perm l2) :
    ∀ r : List β, l1.mapM g = some r →
      ∃ r2, l2.mapM g = some r2 ∧ r2.Perm r := by
  induction h with
  | nil =>
    intro r hr
    exact ⟨r, hr, List.Perm.refl r⟩
  | @cons x t1 t2 hper ih =>
    intro r hr
    simp only [List.mapM_cons, Option.bind_eq_bind, Option.pure_def] at hr ⊢
    cases hgx : g x with
    | none =>
      rw [hgx] at hr
      simp only [Option.none_bind] at hr
      exact Option.noConfusion hr
    | some y =>
      cases hmt : t1.mapM g with
      | none =>
        rw [hgx, hmt] at hr
        simp only [Option.some_bind, Option.none_bind] at hr
        exact Option.noConfusion hr
      | some ys =>
        simp only [hgx, hmt, Option.some_bind, Option.some.injEq] at hr
        obtain ⟨r2, h2, hp⟩ := ih ys hmt
        refine ⟨y :: r2, ?_, ?_⟩
        · simp only [hgx, h2, Option.some_bind]
        · rw [← hr]
          exact hp.cons y
  | @swap x y t =>
    intro r hr
    simp only [List.mapM_cons, Option.bind_eq_bind, Option.pure_def] at hr ⊢
    cases hgy : g y with
    | none =>
      rw [hgy] at hr
      simp only [Option.none_bind] at hr
      exact Option.noConfusion hr
    | some b =>
      cases hgx : g x with
      | none =>
        rw [hgy, hgx] at hr
        simp only [Option.some_bind, Option.none_bind] at hr
        exact Option.noConfusion hr
      | some a =>
        cases hmt : t.mapM g with
        | none =>
          rw [hgy, hgx, hmt] at hr
          simp only [Option.some_bind, Option.none_bind] at hr
          exact Option.noConfusion hr
        | some ys =>
          simp only [hgy, hgx, hmt, Option.some_bind, Option.some.injEq] at hr
          refine ⟨a :: b :: ys, ?_, ?_⟩
          · simp only [hgx, hgy, hmt, Option.some_bind]
          · rw [← hr]
            exact List.Perm.swap b a ys
  | trans h1 h2 ih1 ih2 =>
    intro r hr
    obtain ⟨rm, hm, hpm⟩ := ih1 r hr
    obtain ⟨r2, h2', hp2⟩ := ih2 rm hm
    exact ⟨r2, h2', hp2.trans hpm⟩

/-! ### Round-trip, stage 7: joined text back to lines (C2) -/

/-- Hex digit characters are never newline or carriage return. -/
theorem hexDigitChar_safe (n : Nat) :
    hexDigitChar n ≠ '\n' ∧ hexDigitChar n ≠ '\r' := by
  by_cases h : n < 16
  · interval_cases n <;> decide
  · unfold hexDigitChar
    repeat rw [if_neg (by omega)]
    decide

/-- Escape expansions contain no raw newline or carriage return. -/
theorem escChar_safe (c : Char) : ∀ x ∈ escChar c, x ≠ '\n' ∧ x ≠ '\r' := by
  unfold escChar
  split_ifs with h1 h2 h3 h4 h5 h6 h7 h8
  · decide
  · decide
  · decide
  · decide
  · decide
  · decide
  · decide
  · intro x hx
    simp only [List.mem_cons, List.not_mem_nil, or_false] at hx
    rcases hx with rfl | rfl | rfl | rfl | rfl | rfl
    · decide
    · decide
    · decide
    · decide
    · exact hexDigitChar_safe _
    · exact hexDigitChar_safe _
  · intro x hx
    simp only [List.mem_singleton] at hx
    subst hx
    exact ⟨h5, h7⟩

/-- Rendered strings contain no raw newline or carriage return. -/
theorem renderString_safe (s : List Char) :
    ∀ x ∈ renderString s, x ≠ '\n' ∧ x ≠ '\r' := by
  intro x hx
  unfold renderString at hx
  rcases List.mem_cons.mp hx with rfl | hx
  · decide
  rcases List.mem_append.mp hx with hx | hx
  · obtain ⟨c, _, hxc⟩ := List.mem_flatMap.mp hx
    exact escChar_safe c x hxc
  · simp only [List.mem_singleton] at hx
    subst hx
    decide

/-- Digits are never newline or carriage return. -/
theorem digit_safe {c : Char} (h : isDigitC c = true) :
    c ≠ '\n' ∧ c ≠ '\r' := by
  unfold isDigitC at h
  simp only [Bool.and_eq_true, decide_eq_true_eq] at h
  constructor
  · intro he
    subst he
    exact absurd h (by decide)
  · intro he
    subst he
    exact absurd h (by decide)

/-- Rendered naturals contain no newline or carriage return. -/
theorem natDigits_safe (n : Nat) : ∀ x ∈ natDigits n, x ≠ '\n' ∧ x ≠ '\r' :=
  fun x hx => digit_safe (natDigits_digits n x hx)

/-- Rendered integers contain no newline or carriage return. -/
theorem renderInt_safe (i : Int) : ∀ x ∈ renderInt i, x ≠ '\n' ∧ x ≠ '\r' := by
  unfold renderInt
  by_cases hi : i < 0
  · rw [if_pos hi]
    intro x hx
    rcases List.mem_cons.mp hx with rfl | hx
    · decide
    · exact natDigits_safe _ x hx
  · rw [if_neg hi]
    exact natDigits_safe _

/-- Padding contains no newline or carriage return. -/
theorem spaces_safe (n : Nat) : ∀ x ∈ spaces n, x ≠ '\n' ∧ x ≠ '\r' := by
  intro x hx
  unfold spaces at hx
  rw [List.eq_of_mem_replicate hx]
  decide

/-- Concatenation preserves a character property. -/
theorem safe_append {P : Char → Prop} {l1 l2 : List Char}
    (g1 : ∀ y ∈ l1, P y) (g2 : ∀ y ∈ l2, P y) : ∀ y ∈ l1 ++ l2, P y := by
  intro y hy
  rcases List.mem_append.mp hy with hcase | hcase
  · exact g1 y hcase
  · exact g2 y hcase

/-- Prepending a good character preserves a character property. -/
theorem safe_cons {P : Char → Prop} {c : Char} {b : List Char}
    (hc : P c) (hb : ∀ x ∈ b, P x) : ∀ x ∈ c :: b, P x := by
  intro x hx
  rcases List.mem_cons.mp hx with rfl | h
  · exact hc
  · exact hb x h

/-- Rendered records contain no newline or carriage return. -/
theorem renderFileMeta_safe (m : FileMetaS) :
    ∀ x ∈ renderFileMeta m, x ≠ '\n' ∧ x ≠ '\r' := by
  rcases m with ⟨epb, ty, size, mt, mode, lt⟩
  rcases size with _ | sz <;> rcases mode with _ | md <;> rcases lt with _ | ltv <;>
    simp only [renderFileMeta] <;>
    simp only [List.append_assoc, List.cons_append, List.singleton_append,
      List.nil_append] <;>
    repeat
      first
        | exact renderString_safe _
        | exact natDigits_safe _
        | exact renderInt_safe _
        | refine safe_append ?_ ?_
        | refine safe_cons (by decide) ?_
        | decide

/-- A whole rendered manifest line contains no newline or carriage return. -/
theorem line_safe (e : ManifestEntryS) (padn : Nat) :
    ∀ x ∈ renderString e.path_key ++ spaces padn ++ renderFileMeta e.record,
      x ≠ '\n' ∧ x ≠ '\r' :=
  safe_append (safe_append (renderString_safe _) (spaces_safe _))
    (renderFileMeta_safe _)

/-- Splitting at the newline appended after a newline-free line. -/
theorem splitNl_append (l rest : List Char) (hl : ∀ c ∈ l, c ≠ '\n') :
    splitNlStrict (l ++ '\n' :: rest) = l :: splitNlStrict rest := by
  induction l with
  | nil =>
    rw [List.nil_append, splitNlStrict]
    rw [if_pos rfl]
  | cons c t ih =>
    rw [List.cons_append, splitNlStrict]
    rw [if_neg (hl c (List.mem_cons_self c t))]
    rw [ih (fun d hd => hl d (List.mem_cons_of_mem c hd))]

/-- Splitting the joined lines recovers them plus a final empty segment. -/
theorem splitNl_unlines (ls : List (List Char))
    (h : ∀ l ∈ ls, ∀ c ∈ l, c ≠ '\n') :
    splitNlStrict (unlinesW ls) = ls ++ [[]] := by
  induction ls with
  | nil => rfl
  | cons l t ih =>
    unfold unlinesW
    rw [List.flatMap_cons]
    rw [List.append_assoc, List.singleton_append]
    rw [splitNl_append l _ (h l (List.mem_cons_self l t))]
    show l :: splitNlStrict (unlinesW t) = (l :: t) ++ [[]]
    rw [ih (fun x hx => h x (List.mem_cons_of_mem l hx))]
    rfl

/-- The last element of a list is a member. -/
theorem getLast_mem_of_eq : ∀ (l : List Char) (a : Char),
    l.getLast? = some a → a ∈ l := by
  intro l
  induction l with
  | nil => intro a h; cases h
  | cons c t ih =>
    intro a h
    cases t with
    | nil =>
      rw [List.getLast?_singleton, Option.some.injEq] at h
      subst h
      exact List.mem_cons_self _ _
    | cons d u =>
      rw [List.getLast?_cons_cons] at h
      exact List.mem_cons_of_mem c (ih a h)

/-- Stripping a trailing carriage return does nothing to a line without
one. -/
theorem stripCr_id (l : List Char) (h : ∀ c ∈ l, c ≠ '\r') : stripCr l = l := by
  unfold stripCr
  by_cases hg : l.getLast? = some '\r'
  · exact absurd rfl (h '\r' (getLast_mem_of_eq l '\r' hg))
  · rw [if_neg hg]

/-- `str::lines` of the joined lines recovers them exactly when no line
contains a newline or carriage return. -/
theorem rustLines_unlines (ls : List (List Char))
    (h : ∀ l ∈ ls, ∀ c ∈ l, c ≠ '\n' ∧ c ≠ '\r') :
    rustLines (unlinesW ls) = ls := by
  unfold rustLines
  rw [splitNl_unlines ls (fun l hl c hc => (h l hl c hc).1)]
  rw [List.reverse_append]
  rw [show ([[]] : List (List Char)).reverse = [[]] from rfl]
  rw [List.singleton_append]
  show (if ([] : List Char) = [] then (ls.reverse).reverse.map stripCr
    else (ls.reverse).reverse.map stripCr ++ [[]]) = ls
  rw [if_pos rfl, List.reverse_reverse]
  rw [List.map_congr_left (fun l hl => stripCr_id l (fun c hc => (h l hl c hc).2))]
  exact List.map_id ls

/-- Rendered lines are non-empty. -/
theorem line_ne_nil (k X : List Char) : (renderString k ++ X).isEmpty = false := by
  rw [renderString_expand]
  rfl

/-- Keeping non-empty lines keeps every rendered line. -/
theorem filter_lines (ls : List (List Char))
    (h : ∀ l ∈ ls, l.isEmpty = false) :
    ls.filter (fun l => !l.isEmpty) = ls :=
  List.filter_eq_self.mpr (fun a ha => by rw [h a ha]; rfl)

/-- Claim C2: for every manifest whose entries are representable in the
Rust record types (the `u64`/`u32`/`i128` range side conditions; path keys
and link targets are Unicode text in this model, so serialization
succeeds), rendering with `Manifest::serialize`, joining the lines with
trailing newlines, deserializing the text with
`Manifest::deserialize_manifest`, and rendering the result again yields
exactly the same lines: serialize(deserialize(join(serialize(M)))) =
serialize(M). -/
theorem serialize_roundtrip (m : List ManifestEntryS)
    (hwf : ∀ e ∈ m, e.record.wf) :
    ∃ m', deserialize_manifest (unlinesW (manifest_serialize m)) = some m'
      ∧ manifest_serialize m' = manifest_serialize m := by
  have hLperm : (manifest_serialize m).Perm (manifestLines m) :=
    sortByLe_perm _ _
  have hshape : ∀ l ∈ manifestLines m, ∃ e ∈ m,
      l = renderString e.path_key
        ++ spaces (manifestPad m - strWidth (renderString e.path_key))
        ++ renderFileMeta e.record := by
    intro l hl
    unfold manifestLines manifestPairs at hl
    rw [List.map_map] at hl
    obtain ⟨e, he, hle⟩ := List.mem_map.mp hl
    exact ⟨e, he, hle.symm⟩
  have hsafe : ∀ l ∈ manifest_serialize m, ∀ c ∈ l, c ≠ '\n' ∧ c ≠ '\r' := by
    intro l hl
    obtain ⟨e, _, hle⟩ := hshape l (hLperm.mem_iff.mp hl)
    rw [hle]
    exact line_safe e _
  have hne : ∀ l ∈ manifest_serialize m, l.isEmpty = false := by
    intro l hl
    obtain ⟨e, _, hle⟩ := hshape l (hLperm.mem_iff.mp hl)
    rw [hle, List.append_assoc]
    exact line_ne_nil _ _
  have hmapM : (manifestLines m).mapM deserialize_entry = some m := by
    show ((m.map serialize_entry).map
        (fun p => p.1 ++ spaces (manifestPad m - strWidth p.1) ++ p.2)).mapM
          deserialize_entry = some m
    exact mapM_lines (manifestPad m) m hwf
  obtain ⟨es, hes, hesp⟩ :=
    mapM_some_perm deserialize_entry hLperm.symm m hmapM
  refine ⟨sortByLe entryLe es, ?_, ?_⟩
  · unfold deserialize_manifest
    rw [rustLines_unlines _ hsafe]
    rw [filter_lines _ hne]
    rw [hes]
    rfl
  · exact manifest_serialize_perm ((sortByLe_perm entryLe es).trans hesp)

/-- Concrete one-entry round-trip instance for the serializer. -/
theorem serialize_roundtrip_witness :
    (∀ e ∈ [entA], e.record.wf) ∧
      (∃ m', deserialize_manifest (unlinesW (manifest_serialize [entA])) = some m'
        ∧ manifest_serialize m' = manifest_serialize [entA]) := by
  have hwf : ∀ e ∈ [entA], e.record.wf := by
    intro e he
    rw [List.mem_singleton] at he
    subst he
    refine ⟨?_, ?_, by show -(2 ^ 127) ≤ (0 : Int); norm_num,
      by show (0 : Int) < 2 ^ 127; norm_num⟩
    · intro n hn
      simp [entA, fmGeneric] at hn
    · intro n hn
      simp [entA, fmGeneric] at hn
  exact ⟨hwf, serialize_roundtrip [entA] hwf⟩

/-! ### C7, stage 1: every parser consumes a prefix (suffix lemmas) -/

/-- Whitespace skipping leaves a suffix. -/
theorem skipWs_sfx (s : List Char) : skipWs s <:+ s := by
  induction s with
  | nil => exact List.suffix_refl _
  | cons c cs ih =>
    rw [skipWs]
    by_cases h : isWsChar c
    · rw [if_pos h]
      exact ih.trans (List.suffix_cons c cs)
    · rw [if_neg h]

/-- A unicode escape body consumes a prefix. -/
theorem parseUEscape_sfx (cs : List Char) (pe : Char × List Char)
    (h : parseUEscape cs = some pe) : pe.2 <:+ cs := by
  rcases cs with _ | ⟨e1, _ | ⟨e2, _ | ⟨e3, _ | ⟨e4, cs3⟩⟩⟩⟩
  · exact Option.noConfusion h
  · exact Option.noConfusion h
  · exact Option.noConfusion h
  · exact Option.noConfusion h
  rw [parseUEscape.eq_def] at h
  dsimp only at h
  cases hh : hex4 e1 e2 e3 e4 with
  | none => rw [hh] at h; exact Option.noConfusion h
  | some n =>
    rw [hh, Option.some_bind] at h
    split_ifs at h with hn1 hn2
    · injection h with hpe
      subst hpe
      exact ⟨[e1, e2, e3, e4], rfl⟩
    · rcases cs3 with _ | ⟨b1, _ | ⟨b2, _ | ⟨g1, _ | ⟨g2, _ | ⟨g3, _ | ⟨g4, cs4⟩⟩⟩⟩⟩⟩
      · exact Option.noConfusion h
      · exact Option.noConfusion h
      · exact Option.noConfusion h
      · exact Option.noConfusion h
      · exact Option.noConfusion h
      · exact Option.noConfusion h
      dsimp only at h
      split_ifs at h with hb
      cases hg : hex4 g1 g2 g3 g4 with
      | none => rw [hg] at h; exact Option.noConfusion h
      | some mv =>
        rw [hg, Option.some_bind] at h
        split_ifs at h with hm
        injection h with hpe
        subst hpe
        exact ⟨[e1, e2, e3, e4, b1, b2, g1, g2, g3, g4], rfl⟩

/-- One escape sequence consumes a prefix. -/
theorem parseEscape_sfx (cs : List Char) (pe : Char × List Char)
    (h : parseEscape cs = some pe) : pe.2 <:+ cs := by
  rcases cs with _ | ⟨e, cs2⟩
  · exact Option.noConfusion h
  rw [parseEscape.eq_def] at h
  dsimp only at h
  split_ifs at h with h1 h2 h3 h4 h5 h6 h7 h8 h9
  · injection h with hpe; subst hpe; exact ⟨[e], rfl⟩
  · injection h with hpe; subst hpe; exact ⟨[e], rfl⟩
  · injection h with hpe; subst hpe; exact ⟨[e], rfl⟩
  · injection h with hpe; subst hpe; exact ⟨[e], rfl⟩
  · injection h with hpe; subst hpe; exact ⟨[e], rfl⟩
  · injection h with hpe; subst hpe; exact ⟨[e], rfl⟩
  · injection h with hpe; subst hpe; exact ⟨[e], rfl⟩
  · injection h with hpe; subst hpe; exact ⟨[e], rfl⟩
  · exact (parseUEscape_sfx cs2 pe h).trans (List.suffix_cons e cs2)

/-- The string-body parser consumes a prefix. -/
theorem parseStrAuxF_sfx : ∀ (fuel : Nat) (s : List Char)
    (p : List Char × List Char), parseStrAuxF fuel s = some p → p.2 <:+ s := by
  intro fuel
  induction fuel with
  | zero => intro s p h; exact Option.noConfusion h
  | succ f ih =>
    intro s p h
    rcases s with _ | ⟨c, cs⟩
    · exact Option.noConfusion h
    rw [parseStrAuxF.eq_def] at h
    dsimp only at h
    split_ifs at h with h1 h2 h3
    · injection h with hpe
      subst hpe
      exact ⟨[c], rfl⟩
    · cases hpe : parseEscape cs with
      | none => rw [hpe] at h; exact Option.noConfusion h
      | some pe =>
        rw [hpe, Option.some_bind] at h
        cases hps : parseStrAuxF f pe.2 with
        | none => rw [hps] at h; exact Option.noConfusion h
        | some q =>
          rw [hps, Option.map_some'] at h
          injection h with hq
          subst hq
          exact (((ih pe.2 q hps).trans
            (parseEscape_sfx cs pe hpe)).trans (List.suffix_cons c cs))
    · cases hps : parseStrAuxF f cs with
      | none => rw [hps] at h; exact Option.noConfusion h
      | some q =>
        rw [hps, Option.map_some'] at h
        injection h with hq
        subst hq
        exact ((ih cs q hps).trans (List.suffix_cons c cs))

/-- A leading JSON string value consumes a prefix. -/
theorem parseWsString_sfx (s : List Char) (p : List Char × List Char)
    (h : parseWsString s = some p) : p.2 <:+ s := by
  unfold parseWsString at h
  split at h
  · rename_i r1 heq
    refine ((parseStrAuxF_sfx (r1.length + 1) r1 p h).trans ?_).trans
      (skipWs_sfx s)
    rw [heq]
    exact List.suffix_cons _ _
  · exact Option.noConfusion h

/-- Digit munching splits the input. -/
theorem takeDigits_eq (s : List Char) :
    (takeDigits s).1 ++ (takeDigits s).2 = s := by
  induction s with
  | nil => rfl
  | cons c cs ih =>
    rw [takeDigits]
    by_cases h : isDigitC c
    · rw [if_pos h]
      rcases htd : takeDigits cs with ⟨ds, r⟩
      rw [htd] at ih
      dsimp only at ih ⊢
      rw [List.cons_append, ih]
    · rw [if_neg h]
      rfl

/-- Digit munching leaves a suffix. -/
theorem takeDigits_sfx (s : List Char) : (takeDigits s).2 <:+ s :=
  ⟨(takeDigits s).1, takeDigits_eq s⟩

/-- The unsigned-integer parser consumes a prefix. -/
theorem parseJsonUInt_sfx (s : List Char) (p : Nat × List Char)
    (h : parseJsonUInt s = some p) : p.2 <:+ s := by
  unfold parseJsonUInt at h
  split at h
  · exact Option.noConfusion h
  · rename_i d ds r1 heq
    split_ifs at h with hz hf
    · injection h with hq
      subst hq
      refine List.IsSuffix.trans ?_ (takeDigits_sfx s)
      rw [heq]

/-- The signed-integer parser consumes a prefix. -/
theorem parseJsonIntRaw_sfx (s : List Char) (p : Int × List Char)
    (h : parseJsonIntRaw s = some p) : p.2 <:+ s := by
  unfold parseJsonIntRaw at h
  split_ifs at h with hm
  · cases hu : parseJsonUInt s.tail with
    | none => rw [hu] at h; exact Option.noConfusion h
    | some q =>
      rw [hu, Option.map_some'] at h
      injection h with hq
      subst hq
      exact (parseJsonUInt_sfx s.tail q hu).trans (List.tail_suffix s)
  · cases hu : parseJsonUInt s with
    | none => rw [hu] at h; exact Option.noConfusion h
    | some q =>
      rw [hu, Option.map_some'] at h
      injection h with hq
      subst hq
      exact parseJsonUInt_sfx s q hu

/-- The `u64` parser consumes a prefix. -/
theorem parseU64_sfx (s : List Char) (p : Nat × List Char)
    (h : parseU64 s = some p) : p.2 <:+ s := by
  unfold parseU64 at h
  cases hu : parseJsonUInt s with
  | none => rw [hu] at h; exact Option.noConfusion h
  | some q =>
    rw [hu, Option.some_bind] at h
    split_ifs at h with hr
    injection h with hq
    subst hq
    exact parseJsonUInt_sfx s q hu

/-- The `u32` parser consumes a prefix. -/
theorem parseU32_sfx (s : List Char) (p : Nat × List Char)
    (h : parseU32 s = some p) : p.2 <:+ s := by
  unfold parseU32 at h
  cases hu : parseJsonUInt s with
  | none => rw [hu] at h; exact Option.noConfusion h
  | some q =>
    rw [hu, Option.some_bind] at h
    split_ifs at h with hr
    injection h with hq
    subst hq
    exact parseJsonUInt_sfx s q hu

/-- The `i128` parser consumes a prefix. -/
theorem parseI128Ws_sfx (s : List Char) (p : Int × List Char)
    (h : parseI128Ws s = some p) : p.2 <:+ s := by
  unfold parseI128Ws at h
  cases hu : parseJsonIntRaw (skipWs s) with
  | none => rw [hu] at h; exact Option.noConfusion h
  | some q =>
    rw [hu, Option.some_bind] at h
    split_ifs at h with hr
    injection h with hq
    subst hq
    exact (parseJsonIntRaw_sfx (skipWs s) q hu).trans (skipWs_sfx s)

/-- The skipped fraction part consumes a prefix. -/
theorem skipFrac_sfx (s r : List Char) (h : skipFrac s = some r) : r <:+ s := by
  unfold skipFrac at h
  split at h
  · rename_i r1
    split at h
    · exact Option.noConfusion h
    · rename_i d ds r2 heq
      injection h with h1
      subst h1
      have := takeDigits_sfx r1
      rw [heq] at this
      exact this.trans (List.suffix_cons '.' r1)
  · injection h with h1
    subst h1
    exact List.suffix_refl _

/-- The skipped exponent digits consume a prefix. -/
theorem skipExpDigits_sfx (s r : List Char) (h : skipExpDigits s = some r) :
    r <:+ s := by
  unfold skipExpDigits at h
  split at h
  · rename_i r1
    dsimp only at h
    split at h
    · exact Option.noConfusion h
    · rename_i d ds r2 heq
      injection h with h1
      subst h1
      have := takeDigits_sfx r1
      rw [heq] at this
      exact this.trans (List.suffix_cons '+' r1)
  · rename_i r1
    dsimp only at h
    split at h
    · exact Option.noConfusion h
    · rename_i d ds r2 heq
      injection h with h1
      subst h1
      have := takeDigits_sfx r1
      rw [heq] at this
      exact this.trans (List.suffix_cons '-' r1)
  · dsimp only at h
    split at h
    · exact Option.noConfusion h
    · rename_i d ds r2 heq
      injection h with h1
      subst h1
      have := takeDigits_sfx s
      rw [heq] at this
      exact this

/-- The skipped exponent consumes a prefix. -/
theorem skipExp_sfx (s r : List Char) (h : skipExp s = some r) : r <:+ s := by
  unfold skipExp at h
  split at h
  · rename_i r1
    exact (skipExpDigits_sfx r1 r h).trans (List.suffix_cons 'e' r1)
  · rename_i r1
    exact (skipExpDigits_sfx r1 r h).trans (List.suffix_cons 'E' r1)
  · injection h with h1
    subst h1
    exact List.suffix_refl _

/-- A skipped JSON number consumes a prefix. -/
theorem skipNumber_sfx (s r : List Char) (h : skipNumber s = some r) :
    r <:+ s := by
  unfold skipNumber at h
  split at h
  · rename_i r1
    dsimp only at h
    split at h
    · exact Option.noConfusion h
    · rename_i d ds r2 heq
      split_ifs at h with hz
      cases hf : skipFrac r2 with
      | none => rw [hf] at h; exact Option.noConfusion h
      | some r3 =>
        rw [hf, Option.some_bind] at h
        have h1 : r2 <:+ r1 := by
          have := takeDigits_sfx r1
          rw [heq] at this
          exact this
        exact (((skipExp_sfx r3 r h).trans (skipFrac_sfx r2 r3 hf)).trans
          h1).trans (List.suffix_cons '-' r1)
  · dsimp only at h
    split at h
    · exact Option.noConfusion h
    · rename_i d ds r2 heq
      split_ifs at h with hz
      cases hf : skipFrac r2 with
      | none => rw [hf] at h; exact Option.noConfusion h
      | some r3 =>
        rw [hf, Option.some_bind] at h
        have h1 : r2 <:+ s := by
          have := takeDigits_sfx s
          rw [heq] at this
          exact this
        exact ((skipExp_sfx r3 r h).trans (skipFrac_sfx r2 r3 hf)).trans h1

/-- Every function of the unknown-value skipping family consumes a prefix
of its input. -/
theorem skip_sfx : ∀ fuel : Nat,
    (∀ depth s r, skipValue depth fuel s = some r → r <:+ s) ∧
    (∀ depth s r, skipObjBody depth fuel s = some r → r <:+ s) ∧
    (∀ depth s r, skipObjMember depth fuel s = some r → r <:+ s) ∧
    (∀ depth s r, skipObjTail depth fuel s = some r → r <:+ s) ∧
    (∀ depth s r, skipArrBody depth fuel s = some r → r <:+ s) ∧
    (∀ depth s r, skipArrTail depth fuel s = some r → r <:+ s) := by
  intro fuel
  induction fuel with
  | zero =>
    refine ⟨?_, ?_, ?_, ?_, ?_, ?_⟩
    · intro depth s r h
      rw [skipValue] at h
      exact Option.noConfusion h
    · intro depth s r h
      rw [skipObjBody] at h
      exact Option.noConfusion h
    · intro depth s r h
      rw [skipObjMember] at h
      exact Option.noConfusion h
    · intro depth s r h
      rw [skipObjTail] at h
      exact Option.noConfusion h
    · intro depth s r h
      rw [skipArrBody] at h
      exact Option.noConfusion h
    · intro depth s r h
      rw [skipArrTail] at h
      exact Option.noConfusion h
  | succ f ih =>
    obtain ⟨ihv, ihob, ihom, ihot, ihab, ihat⟩ := ih
    refine ⟨?_, ?_, ?_, ?_, ?_, ?_⟩
    · intro depth s r h
      rw [skipValue] at h
      split at h
      · rename_i r1 heq
        cases hp : parseStrAux r1 with
        | none => rw [hp] at h; exact Option.noConfusion h
        | some p =>
          rw [hp, Option.map_some'] at h
          injection h with h1
          rw [← h1]
          refine ((parseStrAuxF_sfx _ r1 p hp).trans ?_).trans (skipWs_sfx s)
          rw [heq]
          exact List.suffix_cons _ _
      · rename_i r1 heq
        injection h with h1
        rw [← h1]
        refine List.IsSuffix.trans ?_ (skipWs_sfx s)
        rw [heq]
        exact ⟨['t', 'r', 'u', 'e'], rfl⟩
      · rename_i r1 heq
        injection h with h1
        rw [← h1]
        refine List.IsSuffix.trans ?_ (skipWs_sfx s)
        rw [heq]
        exact ⟨['f', 'a', 'l', 's', 'e'], rfl⟩
      · rename_i r1 heq
        injection h with h1
        rw [← h1]
        refine List.IsSuffix.trans ?_ (skipWs_sfx s)
        rw [heq]
        exact ⟨['n', 'u', 'l', 'l'], rfl⟩
      · rename_i r1 heq
        split_ifs at h with hd
        refine ((ihob _ r1 r h).trans ?_).trans (skipWs_sfx s)
        rw [heq]
        exact List.suffix_cons _ _
      · rename_i r1 heq
        split_ifs at h with hd
        refine ((ihab _ r1 r h).trans ?_).trans (skipWs_sfx s)
        rw [heq]
        exact List.suffix_cons _ _
      · exact (skipNumber_sfx _ r h).trans (skipWs_sfx s)
    · intro depth s r h
      rw [skipObjBody] at h
      split at h
      · rename_i r1 heq
        injection h with h1
        rw [← h1]
        refine List.IsSuffix.trans ?_ (skipWs_sfx s)
        rw [heq]
        exact List.suffix_cons _ _
      · exact (ihom depth _ r h).trans (skipWs_sfx s)
    · intro depth s r h
      rw [skipObjMember] at h
      cases hp : parseWsString s with
      | none => rw [hp] at h; exact Option.noConfusion h
      | some p =>
        rw [hp, Option.some_bind] at h
        split at h
        · rename_i r1 heq
          cases hv : skipValue depth f r1 with
          | none => rw [hv] at h; exact Option.noConfusion h
          | some r2 =>
            rw [hv, Option.some_bind] at h
            have h1 : r1 <:+ p.2 := by
              have h2 := List.suffix_cons ':' r1
              rw [← heq] at h2
              exact h2.trans (skipWs_sfx p.2)
            exact (((ihot depth r2 r h).trans (ihv depth r1 r2 hv)).trans
              h1).trans (parseWsString_sfx s p hp)
        · exact Option.noConfusion h
    · intro depth s r h
      rw [skipObjTail] at h
      split at h
      · rename_i r1 heq
        have h1 : r1 <:+ s := by
          have h2 := List.suffix_cons ',' r1
          rw [← heq] at h2
          exact h2.trans (skipWs_sfx s)
        exact (ihom depth r1 r h).trans h1
      · rename_i r1 heq
        injection h with h1
        rw [← h1]
        have h2 := List.suffix_cons '}' r1
        rw [← heq] at h2
        exact h2.trans (skipWs_sfx s)
      · exact Option.noConfusion h
    · intro depth s r h
      rw [skipArrBody] at h
      split at h
      · rename_i r1 heq
        injection h with h1
        rw [← h1]
        have h2 := List.suffix_cons ']' r1
        rw [← heq] at h2
        exact h2.trans (skipWs_sfx s)
      · cases hv : skipValue depth f (skipWs s) with
        | none => rw [hv] at h; exact Option.noConfusion h
        | some r2 =>
          rw [hv, Option.some_bind] at h
          exact ((ihat depth r2 r h).trans (ihv depth _ r2 hv)).trans
            (skipWs_sfx s)
    · intro depth s r h
      rw [skipArrTail] at h
      split at h
      · rename_i r1 heq
        cases hv : skipValue depth f r1 with
        | none => rw [hv] at h; exact Option.noConfusion h
        | some r2 =>
          rw [hv, Option.some_bind] at h
          have h1 : r1 <:+ s := by
            have h2 := List.suffix_cons ',' r1
            rw [← heq] at h2
            exact h2.trans (skipWs_sfx s)
          exact ((ihat depth r2 r h).trans (ihv depth r1 r2 hv)).trans h1
      · rename_i r1 heq
        injection h with h1
        rw [← h1]
        have h2 := List.suffix_cons ']' r1
        rw [← heq] at h2
        exact h2.trans (skipWs_sfx s)
      · exact Option.noConfusion h

/-- An ignored unknown-field value consumes a prefix. -/
theorem skipValue_sfx (depth fuel : Nat) (s r : List Char)
    (h : skipValue depth fuel s = some r) : r <:+ s :=
  (skip_sfx fuel).1 depth s r h

/-- The `ty` value parser consumes a prefix. -/
theorem parseTyValue_sfx (s : List Char) (p : NodeType × List Char)
    (h : parseTyValue s = some p) : p.2 <:+ s := by
  unfold parseTyValue at h
  cases hp : parseWsString s with
  | none => rw [hp] at h; exact Option.noConfusion h
  | some q =>
    rw [hp, Option.some_bind] at h
    split_ifs at h <;>
      (injection h with h1; rw [← h1]; exact parseWsString_sfx s q hp)

/-- The `Option<u64>` value parser consumes a prefix. -/
theorem parseOptU64_sfx (s : List Char) (p : Option Nat × List Char)
    (h : parseOptU64 s = some p) : p.2 <:+ s := by
  unfold parseOptU64 at h
  split_ifs at h with hn
  · injection h with h1
    rw [← h1]
    exact (List.drop_suffix 4 (skipWs s)).trans (skipWs_sfx s)
  · cases hu : parseU64 (skipWs s) with
    | none => rw [hu] at h; exact Option.noConfusion h
    | some q =>
      rw [hu, Option.map_some'] at h
      injection h with h1
      rw [← h1]
      exact (parseU64_sfx (skipWs s) q hu).trans (skipWs_sfx s)

/-- The `Option<u32>` value parser consumes a prefix. -/
theorem parseOptU32_sfx (s : List Char) (p : Option Nat × List Char)
    (h : parseOptU32 s = some p) : p.2 <:+ s := by
  unfold parseOptU32 at h
  split_ifs at h with hn
  · injection h with h1
    rw [← h1]
    exact (List.drop_suffix 4 (skipWs s)).trans (skipWs_sfx s)
  · cases hu : parseU32 (skipWs s) with
    | none => rw [hu] at h; exact Option.noConfusion h
    | some q =>
      rw [hu, Option.map_some'] at h
      injection h with h1
      rw [← h1]
      exact (parseU32_sfx (skipWs s) q hu).trans (skipWs_sfx s)

/-- The `Option<PathBuf>` value parser consumes a prefix. -/
theorem parseOptString_sfx (s : List Char) (p : Option (List Char) × List Char)
    (h : parseOptString s = some p) : p.2 <:+ s := by
  unfold parseOptString at h
  split_ifs at h with hn hq
  · injection h with h1
    rw [← h1]
    exact (List.drop_suffix 4 (skipWs s)).trans (skipWs_sfx s)
  · cases hu : parseStrAux (skipWs s).tail with
    | none => rw [hu] at h; exact Option.noConfusion h
    | some q =>
      rw [hu, Option.map_some'] at h
      injection h with h1
      rw [← h1]
      exact ((parseStrAuxF_sfx _ _ q hu).trans
        (List.tail_suffix (skipWs s))).trans (skipWs_sfx s)

/-- One record-object member parse consumes a prefix. -/
theorem parseFMMember_sfx (fuel : Nat) (acc : FMAcc) (s : List Char)
    (p : FMAcc × List Char) (h : parseFMMember fuel acc s = some p) :
    p.2 <:+ s := by
  unfold parseFMMember at h
  cases hp : parseWsString s with
  | none => rw [hp] at h; exact Option.noConfusion h
  | some pk =>
    rw [hp, Option.some_bind] at h
    have hX : (skipWs pk.2).tail <:+ s :=
      ((List.tail_suffix (skipWs pk.2)).trans (skipWs_sfx pk.2)).trans
        (parseWsString_sfx s pk hp)
    split_ifs at h
    · cases hv : parseWsString (skipWs pk.2).tail with
      | none => rw [hv] at h; exact Option.noConfusion h
      | some q =>
        rw [hv, Option.map_some'] at h
        injection h with h1
        rw [← h1]
        exact (parseWsString_sfx _ q hv).trans hX
    · cases hv : parseTyValue (skipWs pk.2).tail with
      | none => rw [hv] at h; exact Option.noConfusion h
      | some q =>
        rw [hv, Option.map_some'] at h
        injection h with h1
        rw [← h1]
        exact (parseTyValue_sfx _ q hv).trans hX
    · cases hv : parseOptU64 (skipWs pk.2).tail with
      | none => rw [hv] at h; exact Option.noConfusion h
      | some q =>
        rw [hv, Option.map_some'] at h
        injection h with h1
        rw [← h1]
        exact (parseOptU64_sfx _ q hv).trans hX
    · cases hv : parseI128Ws (skipWs pk.2).tail with
      | none => rw [hv] at h; exact Option.noConfusion h
      | some q =>
        rw [hv, Option.map_some'] at h
        injection h with h1
        rw [← h1]
        exact (parseI128Ws_sfx _ q hv).trans hX
    · cases hv : parseOptU32 (skipWs pk.2).tail with
      | none => rw [hv] at h; exact Option.noConfusion h
      | some q =>
        rw [hv, Option.map_some'] at h
        injection h with h1
        rw [← h1]
        exact (parseOptU32_sfx _ q hv).trans hX
    · cases hv : parseOptString (skipWs pk.2).tail with
      | none => rw [hv] at h; exact Option.noConfusion h
      | some q =>
        rw [hv, Option.map_some'] at h
        injection h with h1
        rw [← h1]
        exact (parseOptString_sfx _ q hv).trans hX
    · cases hv : skipValue 127 fuel (skipWs pk.2).tail with
      | none => rw [hv] at h; exact Option.noConfusion h
      | some r2 =>
        rw [hv, Option.map_some'] at h
        injection h with h1
        rw [← h1]
        exact (skipValue_sfx 127 fuel _ r2 hv).trans hX

/-- The record-object member loop consumes a prefix. -/
theorem parseFMLoop_sfx : ∀ (fuel : Nat) (acc : FMAcc) (s : List Char)
    (p : FMAcc × List Char), parseFMLoop fuel acc s = some p → p.2 <:+ s := by
  intro fuel
  induction fuel with
  | zero =>
    intro acc s p h
    rw [parseFMLoop] at h
    exact Option.noConfusion h
  | succ f ih =>
    intro acc s p h
    rw [parseFMLoop] at h
    split_ifs at h with hc hb
    · cases hm : parseFMMember f acc (skipWs s).tail with
      | none => rw [hm] at h; exact Option.noConfusion h
      | some q =>
        rw [hm, Option.some_bind] at h
        exact (((ih q.1 q.2 p h).trans (parseFMMember_sfx f acc _ q hm)).trans
          (List.tail_suffix (skipWs s))).trans (skipWs_sfx s)
    · injection h with h1
      rw [← h1]
      exact (List.tail_suffix (skipWs s)).trans (skipWs_sfx s)

/-- `FileMeta::deserialize` consumes a prefix. -/
theorem parseFileMeta_sfx (s : List Char) (p : FileMetaS × List Char)
    (h : parseFileMeta s = some p) : p.2 <:+ s := by
  unfold parseFileMeta at h
  split_ifs at h with h1 h2
  · exact Option.noConfusion h
  · cases hm : parseFMMember (2 * s.length + 2) emptyFMAcc
        (skipWs (skipWs s).tail) with
    | none => rw [hm] at h; exact Option.noConfusion h
    | some q =>
      rw [hm, Option.some_bind] at h
      cases hl : parseFMLoop (2 * s.length + 2) q.1 q.2 with
      | none => rw [hl] at h; exact Option.noConfusion h
      | some q2 =>
        rw [hl, Option.some_bind] at h
        cases hf : finalizeFM q2.1 with
        | none => rw [hf] at h; exact Option.noConfusion h
        | some fm =>
          rw [hf, Option.map_some'] at h
          injection h with h1
          rw [← h1]
          exact (((parseFMLoop_sfx _ q.1 q.2 q2 hl).trans
            (parseFMMember_sfx _ emptyFMAcc _ q hm)).trans
            ((skipWs_sfx _).trans (List.tail_suffix (skipWs s)))).trans
            (skipWs_sfx s)

/-- Claim C7: `ManifestEntry::deserialize_entry` succeeds exactly when the
line splits into a prefix that is a valid leading JSON string (the path
key), followed by a segment that is a valid JSON object for the record,
followed by whitespace only; any non-whitespace trailing content after the
two values, and any missing or malformed value, makes the strict parse
fail. -/
theorem deserialize_entry_strict (line : List Char) :
    (deserialize_entry line).isSome = true ↔
      ∃ a b c k fm, line = a ++ b ++ c
        ∧ parseWsString (a ++ (b ++ c)) = some (k, b ++ c)
        ∧ parseFileMeta (b ++ c) = some (fm, c)
        ∧ skipWs c = [] := by
  constructor
  · intro h
    rw [Option.isSome_iff_exists] at h
    obtain ⟨e, he⟩ := h
    unfold deserialize_entry at he
    cases hp : parseWsString line with
    | none => rw [hp] at he; exact Option.noConfusion he
    | some pk =>
      rw [hp, Option.some_bind] at he
      cases hm : parseFileMeta pk.2 with
      | none => rw [hm] at he; exact Option.noConfusion he
      | some pm =>
        rw [hm, Option.some_bind] at he
        split_ifs at he with hws
        · obtain ⟨b0, hb0⟩ := parseFileMeta_sfx pk.2 pm hm
          obtain ⟨a0, ha0⟩ := parseWsString_sfx line pk hp
          refine ⟨a0, b0, pm.2, pk.1, pm.1, ?_, ?_, ?_, ?_⟩
          · rw [← ha0, ← hb0, List.append_assoc]
          · rw [hb0, ha0, hp]
          · rw [hb0, hm]
          · rwa [List.isEmpty_iff] at hws
  · rintro ⟨a, b, c, k, fm, hline, hstr, hfm, hws⟩
    rw [hline]
    unfold deserialize_entry
    rw [List.append_assoc, hstr]
    simp only [Option.some_bind]
    rw [hfm]
    simp only [Option.some_bind]
    rw [hws]
    rfl

end Filesync
